import Mathlib

/-!
Verification of the `MedianContainer` implementations of this repository
(`median_container_heaps.py`, the two-heaps/lazy-deletion variant, and
`median_container_bisect.py`, the sorted-list variant).

Representation choices of the shallow embedding:

* The Python `heapq` heaps are binary min-heaps that the container accesses
  only through `heappush`, `heappop` and `heap[0]` (the minimum); no other
  position is ever inspected.  Each heap is therefore represented by the
  ascending sorted sequence of its entries: `heapPush` is ordered insertion,
  `heap[0]` is the head and `heappop` removes the head.  The `left` heap
  stores negated values exactly as in the source.

* A Python `defaultdict(int)` is an insertion-ordered association list.
  Reading a missing key through `d[k]` *inserts* that key with value 0; this
  effect is modelled faithfully by `dget` (it matters for the claimed no-op
  behaviour of a failed `remove`).

* The unguarded `heappop`/`heap[0]` accesses of the source raise `IndexError`
  on an empty heap; such a crash is modelled by `Option` (`none` = crash).
  `median()` additionally raises `ValueError("empty")` — the EmptyContainer
  error — when `n == 0`; that intended error is the `Except.error` case.
-/

set_option linter.unusedVariables false
set_option autoImplicit false

deriving instance DecidableEq for Except

/-- First binding of key `k` in an association list, if any. -/
def dfind : List (Int × Int) → Int → Option Int
  | [], _ => none
  | (k0, v0) :: rest, k => if k0 = k then some v0 else dfind rest k

/-- Count stored for key `k`, reading a missing key as 0 (pure lookup,
used to state properties; the operational read is `dget`). -/
def fc (d : List (Int × Int)) (k : Int) : Int :=
  (dfind d k).getD 0

/-- Python `defaultdict(int).__getitem__`: return the stored value, inserting
the key with default 0 when absent (appended, matching dict insertion
order). -/
def dget (d : List (Int × Int)) (k : Int) : Int × List (Int × Int) :=
  match dfind d k with
  | some v => (v, d)
  | none => (0, d ++ [(k, 0)])

/-- Python `dict.__setitem__`: overwrite the entry for `k`, appending it when
new. -/
def dset (d : List (Int × Int)) (k v : Int) : List (Int × Int) :=
  match d with
  | [] => [(k, v)]
  | (k0, v0) :: rest => if k0 = k then (k, v) :: rest else (k0, v0) :: dset rest k v

/-- Keys of a dictionary. -/
def dkeys (d : List (Int × Int)) : List Int := d.map Prod.fst

/-- Sum of all stored counts. -/
def totalOf (d : List (Int × Int)) : Int := (d.map Prod.snd).sum

/-- Combined read-and-decrement performed by the prune loops on a `delayed`
entry: `v = <key>; self.delayed[v] -= 1` (a `dget` that cannot miss, then a
`dset`). -/
def dstep (d : List (Int × Int)) (k : Int) : List (Int × Int) :=
  dset (dget (dget d k).2 k).2 k ((dget (dget d k).2 k).1 - 1)

/-- Effect of `heapq.heappush` on the ascending sorted sequence of the heap's
entries: ordered insertion. -/
def heapPush (h : List Int) (x : Int) : List Int :=
  match h with
  | [] => [x]
  | y :: rest => if x ≤ y then x :: y :: rest else y :: heapPush rest x

/-- Number of occurrences of `a` in `l`, as an integer (used by the ledger
invariants relating physical heap entries to the `freq`/`delayed` counts). -/
def cnt : List Int → Int → Int
  | [], _ => 0
  | y :: rest, a => (if y = a then 1 else 0) + cnt rest a

/-- State of the two-heaps container (`MedianContainer` in
`median_container_heaps.py`): `left` holds negated values. -/
structure MedianContainer where
  left : List Int
  right : List Int
  left_size : Int
  right_size : Int
  delayed : List (Int × Int)
  freq : List (Int × Int)
  n : Int
deriving Repr, DecidableEq

namespace MedianContainer

/-- The freshly constructed container. -/
def empty : MedianContainer := ⟨[], [], 0, 0, [], [], 0⟩

/-- Loop of `_prune_left` on the raw data: while the (negated) left heap is
non-empty and its top value has a positive `delayed` credit, pop the top and
decrement that credit.  Every dictionary read goes through `dget`, so the key
insertions performed by `defaultdict` lookups are reproduced. -/
def pruneLL : List Int → List (Int × Int) → List Int × List (Int × Int)
  | [], d => ([], d)
  | t :: rest, d =>
    let p := dget d (-t)
    if p.1 > 0 then
      let q := dget p.2 (-t)
      pruneLL rest (dset q.2 (-t) (q.1 - 1))
    else (t :: rest, p.2)

/-- Worker for `_prune_right`. -/
def pruneRL : List Int → List (Int × Int) → List Int × List (Int × Int)
  | [], d => ([], d)
  | t :: rest, d =>
    let p := dget d t
    if p.1 > 0 then
      let q := dget p.2 t
      pruneRL rest (dset q.2 t (q.1 - 1))
    else (t :: rest, p.2)

/-- `MedianContainer._prune_left`. -/
def prune_left (s : MedianContainer) : MedianContainer :=
  let p := pruneLL s.left s.delayed
  { s with left := p.1, delayed := p.2 }

/-- `MedianContainer._prune_right`. -/
def prune_right (s : MedianContainer) : MedianContainer :=
  let p := pruneRL s.right s.delayed
  { s with right := p.1, delayed := p.2 }

/-- Corrective move of `_rebalance` from the upper to the lower partition:
pop the top `v` of the (already pruned) right heap — `rest` is what remains —
push it into the left heap and fix the logical sizes. -/
def moveRL (s : MedianContainer) (v : Int) (rest : List Int) : MedianContainer :=
  { s with right := rest, left := heapPush s.left (-v),
           right_size := s.right_size - 1, left_size := s.left_size + 1 }

/-- Corrective move of `_rebalance` from the lower to the upper partition:
pop the top entry `t` of the (already pruned) left heap — the stored value is
`-t` — push it into the right heap and fix the logical sizes. -/
def moveLR (s : MedianContainer) (t : Int) (rest : List Int) : MedianContainer :=
  { s with left := rest, right := heapPush s.right (-t),
           left_size := s.left_size - 1, right_size := s.right_size + 1 }

/-- `MedianContainer._rebalance`.  The two `heappop` calls are unguarded in
the source; popping an empty heap is the `none` (crash) outcome. -/
def rebalance (s : MedianContainer) : Option MedianContainer :=
  if s.left_size < s.right_size then
    match (prune_right s).right with
    | [] => none
    | v :: rest => some (prune_right (moveRL (prune_right s) v rest))
  else if s.left_size - s.right_size > 1 then
    match (prune_left s).left with
    | [] => none
    | t :: rest => some (prune_left (moveLR (prune_left s) t rest))
  else some s

/-- Reference median read in `add` and `remove` (both call it after pruning
the left heap): `-self.left[0]` when the left heap is non-empty, else
`self.right[0]`, else the probed value `x` itself. -/
def medianRef (s : MedianContainer) (x : Int) : Int :=
  match s.left with
  | t :: _ => -t
  | [] =>
    match s.right with
    | r :: _ => r
    | [] => x

/-- Routing step of `add`: an empty lower partition (by logical size) takes
`x` directly; otherwise `x` goes left or right of the reference median. -/
def addRoute (x : Int) (s : MedianContainer) : MedianContainer :=
  if s.left_size = 0 then
    { s with left := heapPush s.left (-x), left_size := s.left_size + 1 }
  else
    let sp := prune_left s
    if x ≤ medianRef sp x then
      { sp with left := heapPush sp.left (-x), left_size := sp.left_size + 1 }
    else
      { sp with right := heapPush sp.right x, right_size := sp.right_size + 1 }

/-- Ledger bookkeeping of `add`: `self.freq[x] += 1; self.n += 1`. -/
def bumpFreq (x : Int) (s : MedianContainer) : MedianContainer :=
  let p := dget s.freq x
  { s with freq := dset p.2 x (p.1 + 1), n := s.n + 1 }

/-- `MedianContainer.add`: route, ledger bookkeeping, then rebalance. -/
def add (x : Int) (s : MedianContainer) : Option MedianContainer :=
  rebalance (bumpFreq x (addRoute x s))

/-- Deletion bookkeeping of `remove`:
`self.freq[x] -= 1; self.delayed[x] += 1; self.n -= 1`. -/
def removeDel (x : Int) (s : MedianContainer) : MedianContainer :=
  let p1 := dget s.freq x
  let s1 := { s with freq := dset p1.2 x (p1.1 - 1) }
  let p2 := dget s1.delayed x
  { s1 with delayed := dset p2.2 x (p2.1 + 1), n := s1.n - 1 }

/-- Size attribution of `remove`: prune the left heap, compare `x` with the
reference median, and decrement the logical size of the partition that is
charged, clamping a negative result to 0 ("safety" comments in the
source). -/
def removeAttr (x : Int) (s : MedianContainer) : MedianContainer :=
  let s3 := prune_left s
  if x ≤ medianRef s3 x then
    let ls := s3.left_size - 1
    { s3 with left_size := if ls < 0 then 0 else ls }
  else
    let rs := s3.right_size - 1
    { s3 with right_size := if rs < 0 then 0 else rs }

/-- `MedianContainer.remove`: the initial `self.freq[x]` read inserts the key
when absent; a present value removes one occurrence, prunes both heaps,
rebalances, prunes once more and returns true. -/
def remove (x : Int) (s : MedianContainer) : Option (Bool × MedianContainer) :=
  let p0 := dget s.freq x
  let s0 := { s with freq := p0.2 }
  if p0.1 = 0 then some (false, s0)
  else
    let s5 := prune_right (prune_left (removeAttr x (removeDel x s0)))
    match rebalance s5 with
    | none => none
    | some s6 => some (true, prune_left s6)

/-- `MedianContainer.median`: the `n == 0` guard raises the EmptyContainer
error (`Except.error ()`); with `n ≠ 0` the source reads `self.left[0]`
without a guard, so an empty pruned left heap is a crash (`none`). -/
def median (s : MedianContainer) : Option (Except Unit (Int × MedianContainer)) :=
  if s.n = 0 then some (Except.error ())
  else
    let s1 := prune_left s
    match s1.left with
    | [] => none
    | t :: _ => some (Except.ok (-t, s1))

end MedianContainer

/-- States reachable from the empty container by completed operations
(a `median` call that raises EmptyContainer leaves the state unchanged, so it
adds no new states). -/
inductive Reach : MedianContainer → Prop
  | init : Reach MedianContainer.empty
  | add {s s1 : MedianContainer} {x : Int} :
      Reach s → MedianContainer.add x s = some s1 → Reach s1
  | rem {s s1 : MedianContainer} {b : Bool} {x : Int} :
      Reach s → MedianContainer.remove x s = some (b, s1) → Reach s1
  | med {s s1 : MedianContainer} {v : Int} :
      Reach s → MedianContainer.median s = some (Except.ok (v, s1)) → Reach s1

/-- Operations of a driving script. -/
inductive Op
  | add (x : Int)
  | remove (x : Int)
  | median
deriving Repr, DecidableEq

/-- One scripted step of the heaps container: a crash is `none`; a `median`
call on the empty container is the handled EmptyContainer error and leaves
the state unchanged. -/
def step (s : MedianContainer) : Op → Option MedianContainer
  | .add x => MedianContainer.add x s
  | .remove x => (MedianContainer.remove x s).map Prod.snd
  | .median =>
    match MedianContainer.median s with
    | some (.error ()) => some s
    | some (.ok (_, s1)) => some s1
    | none => none

/-- Run a script from the empty heaps container. -/
def runOps (ops : List Op) : Option MedianContainer :=
  ops.foldl (fun acc op => acc.bind (fun s => step s op)) (some MedianContainer.empty)

/-- Value returned by a successful `median()` call. -/
def medianVal (s : MedianContainer) : Option Int :=
  match MedianContainer.median s with
  | some (.ok (v, _)) => some v
  | _ => none

/-- Multiset described by the `freq` ledger, as an unordered list (each key
repeated by its count). -/
def expandFreq : List (Int × Int) → List Int
  | [] => []
  | (k, v) :: rest => List.replicate v.toNat k ++ expandFreq rest

/-- Insertion sort into ascending order. -/
def sortAsc (l : List Int) : List Int :=
  l.foldr (fun x acc => heapPush acc x) []

/-- Lower median of a finite multiset: the entry at 0-indexed position
`⌊(n-1)/2⌋` of its ascending sorted sequence. -/
def lowerMedianOf (l : List Int) : Option Int :=
  (sortAsc l).get? ((l.length - 1) / 2)

/-- Lower median of the logical multiset of a heaps-container state. -/
def logicalMedian (s : MedianContainer) : Option Int :=
  lowerMedianOf (expandFreq s.freq)

/-- Index returned by `bisect.bisect_left` on a sorted list: the number of
entries `< x`. -/
def bisectLeft (a : List Int) (x : Int) : Nat :=
  (a.takeWhile (fun y => decide (y < x))).length

/-- Effect of `bisect.insort` on a sorted list: ordered insertion (after
existing equal entries). -/
def insort (a : List Int) (x : Int) : List Int :=
  match a with
  | [] => [x]
  | y :: rest => if x < y then x :: y :: rest else y :: insort rest x

/-- State of the sorted-list container (`MedianContainer` in
`median_container_bisect.py`). -/
structure BisectContainer where
  a : List Int
deriving Repr, DecidableEq

namespace BisectContainer

/-- The freshly constructed bisect container. -/
def empty : BisectContainer := ⟨[]⟩

/-- `MedianContainer.add` of the bisect variant. -/
def add (x : Int) (s : BisectContainer) : BisectContainer :=
  ⟨insort s.a x⟩

/-- `MedianContainer.remove` of the bisect variant. -/
def remove (x : Int) (s : BisectContainer) : Bool × BisectContainer :=
  let i := bisectLeft s.a x
  if i = s.a.length ∨ s.a.get? i ≠ some x then (false, s)
  else (true, ⟨s.a.eraseIdx i⟩)

/-- `MedianContainer.median` of the bisect variant: `none` is the
EmptyContainer error (`ValueError("empty")`). -/
def median (s : BisectContainer) : Option Int :=
  if s.a = [] then none
  else
    let len := s.a.length
    let idx := if len % 2 = 1 then len / 2 else len / 2 - 1
    s.a.get? idx

end BisectContainer

/-- Run a script from the empty bisect container (no operation of the bisect
variant can crash; an empty-container `median` leaves the state unchanged). -/
def runOpsB (ops : List Op) : BisectContainer :=
  ops.foldl
    (fun s op =>
      match op with
      | .add x => BisectContainer.add x s
      | .remove x => (BisectContainer.remove x s).2
      | .median => s)
    BisectContainer.empty

/-- Shortest divergence script: after it the heaps container answers a wrong
median. -/
def divergenceOps : List Op := [.add 1, .add 2, .add 2, .add 2, .remove 2]

/-- Scripted prefix after which a `median()` call with `n = 2 > 0` crashes on
the emptied left heap. -/
def crashOps : List Op := [.add 1, .add 2, .add 2, .remove 2]

/-- Scenario 4 of the specification (also `test_duplicates_and_empty`). -/
def scenario4Ops : List Op := [.add 1, .add 1, .add 2, .add 2, .add 2]

/-- Scripted prefix after which the value 2 is still logically present
(`freq[2] = 2`) yet `remove(2)` crashes: its internal rebalancing pops from
an emptied heap. -/
def removeCrashOps : List Op :=
  [.add 1, .add 2, .add 2, .add 2, .remove 2, .add 2, .add 2, .remove 2, .remove 2]

/-- The state reached by `add 1, add 2` (both heaps non-empty). -/
def twoState : MedianContainer := ⟨[-1], [2], 1, 1, [(1, 0)], [(1, 1), (2, 1)], 2⟩

/-- The state reached by `add 1, add 2, add 3`. -/
def threeState : MedianContainer :=
  ⟨[-2, -1], [3], 2, 1, [(1, 0), (2, 0), (3, 0)], [(1, 1), (2, 1), (3, 1)], 3⟩

/-- Pre-rebalance state of `add 1` on the empty container: the rebalancing
invocation that follows this insert moves nothing. -/
def balancedOneState : MedianContainer := ⟨[-1], [], 1, 0, [], [(1, 1)], 1⟩

/-- Number of physical entries of value `v` across both heaps (`left` stores
the negation of the value). -/
def physCount (s : MedianContainer) (v : Int) : Int :=
  cnt s.left (-v) + cnt s.right v

/-- Structural invariant of the two-heaps container, maintained by every
completed operation: sorted heap sequences, the physical partition order, a
consistent Ledger (`physical = freq + delayed`, both counts non-negative,
`n` equal to the total logical count), the size-sum equation, and empty heaps
in the logically empty state. -/
structure CoreInv (s : MedianContainer) : Prop where
  sortedL : List.Pairwise (· ≤ ·) s.left
  sortedR : List.Pairwise (· ≤ ·) s.right
  order : ∀ u ∈ s.left, ∀ v ∈ s.right, -u ≤ v
  dnn : ∀ v, 0 ≤ fc s.delayed v
  fess : ∀ p ∈ s.freq, 0 ≤ p.2
  ledger : ∀ v, cnt s.left (-v) + cnt s.right v = fc s.freq v + fc s.delayed v
  nodupF : (dkeys s.freq).Nodup
  ntotal : s.n = totalOf s.freq
  sizes : s.left_size + s.right_size = s.n

/-- The top of the upper partition carries no pending-removal credit (every
completed operation reestablishes this). -/
def TopR (s : MedianContainer) : Prop :=
  ∀ r t, s.right = r :: t → fc s.delayed r = 0

/-- A logically empty container holds no physical entries (true at the end of
every completed operation, though not in the middle of a `remove`). -/
def ZeroE (s : MedianContainer) : Prop :=
  s.n = 0 → s.left = [] ∧ s.right = []

/-- Invariant of every reachable state: the structural core, the clean upper
top, emptiness at size zero, and the balance `left_size - right_size ∈ {0, 1}`. -/
def FullInv (s : MedianContainer) : Prop :=
  CoreInv s ∧ TopR s ∧ ZeroE s ∧
    0 ≤ s.left_size - s.right_size ∧ s.left_size - s.right_size ≤ 1

/-- C1 (refuted): after `add 1, add 2, add 2, add 2, remove 2` the container
holds the logical multiset {1, 2, 2}, whose lower median is 2, yet `median()`
returns 1.  The lazy-deletion bookkeeping of `remove` attributed the deletion
to the upper partition although the stale entry was pruned out of the lower
one. -/
theorem c1_median_not_lower_median :
    (runOps divergenceOps).bind medianVal = some 1 ∧
    (runOps divergenceOps).bind logicalMedian = some 2 := by decide

/-- C2 (refuted): on the script `add 1, add 2, add 2, add 2, remove 2` the
bisect container answers `median() = 2` while the heaps container answers
`median() = 1`, so the two implementations are not observationally
equivalent. -/
theorem c2_heaps_bisect_divergence :
    (runOps divergenceOps).bind medianVal = some 1 ∧
    BisectContainer.median (runOpsB divergenceOps) = some 2 := by decide

/-- C7 (refuted): after `add 1, add 2, add 2, remove 2` the reachable state
has `n = 2 > 0` but an empty left heap, and the unguarded `self.left[0]` read
in `median()` executes on that empty heap (an IndexError, modelled as
`none`). -/
theorem c7_unguarded_access_crashes :
    (runOps crashOps).map MedianContainer.n = some 2 ∧
    (runOps crashOps).bind MedianContainer.median = none := by decide

/-- C10 (refuted at the last step): the scripted scenario
`add 1, add 1, add 2, add 2, add 2` gives `median() = 2`, `remove 2` returns
true, `median()` then returns 1, `remove 1` returns true — all as claimed —
but the final `median()` returns 1, not the claimed 2 (the logical multiset
is {1, 2, 2}). -/
theorem c10_scenario4_last_median_wrong :
    (runOps scenario4Ops).bind medianVal = some 2 ∧
    (runOps (scenario4Ops ++ [.median])).bind
      (fun s => (MedianContainer.remove 2 s).map Prod.fst) = some true ∧
    (runOps (scenario4Ops ++ [.median, .remove 2])).bind medianVal = some 1 ∧
    (runOps (scenario4Ops ++ [.median, .remove 2, .median])).bind
      (fun s => (MedianContainer.remove 1 s).map Prod.fst) = some true ∧
    (runOps (scenario4Ops ++ [.median, .remove 2, .median, .remove 1])).bind
      medianVal = some 1 ∧
    (runOps (scenario4Ops ++ [.median, .remove 2, .median, .remove 1])).bind
      logicalMedian = some 2 := by decide

/-- C8 (refuted): the rebalancing invocation performed by `add 1` on the
empty container returns both heaps unchanged.  A crossing would pop an entry
from one heap and push it into the other, strictly growing the receiving
heap, so on this invocation no element crosses — refuting "exactly one
element crosses partitions per invocation". -/
theorem c8_rebalance_can_move_nothing :
    MedianContainer.add 1 MedianContainer.empty = some balancedOneState ∧
    MedianContainer.rebalance balancedOneState = some balancedOneState ∧
    ¬(balancedOneState.left.length = balancedOneState.left.length + 1 ∨
      balancedOneState.right.length = balancedOneState.right.length + 1) := by
  decide

/-- C9 (refuted in its map-growth part): `remove 0` on the empty container
returns false, but the `defaultdict` read `self.freq[x]` inserts the key 0
with count 0 into the `freq` ledger, so the state is not left entirely
unchanged. -/
theorem c9_failed_remove_inserts_key :
    MedianContainer.remove 0 MedianContainer.empty =
      some (false, { MedianContainer.empty with freq := [(0, 0)] }) ∧
    ({ MedianContainer.empty with freq := [(0, 0)] } : MedianContainer) ≠
      MedianContainer.empty := by decide

/-! Association-list (dictionary) lemmas. -/

theorem dget_fst (d : List (Int × Int)) (k : Int) : (dget d k).1 = fc d k := by
  unfold dget fc
  cases dfind d k <;> rfl

theorem dfind_append (d e : List (Int × Int)) (k : Int) :
    dfind (d ++ e) k = ((dfind d k).rec (dfind e k) (fun v => some v)) := by
  induction d with
  | nil => rfl
  | cons p rest ih =>
    obtain ⟨k0, v0⟩ := p
    by_cases h : k0 = k <;> simp [dfind, h, ih]

theorem dfind_eq_none_iff (d : List (Int × Int)) (k : Int) :
    dfind d k = none ↔ k ∉ dkeys d := by
  induction d with
  | nil => simp [dfind, dkeys]
  | cons p rest ih =>
    obtain ⟨k0, v0⟩ := p
    by_cases h : k0 = k
    · subst h
      simp [dfind, dkeys]
    · have hne : ¬k = k0 := fun h2 => h h2.symm
      simp only [dfind, if_neg h, ih, dkeys, List.map_cons, List.mem_cons]
      tauto

theorem fc_dget (d : List (Int × Int)) (k v : Int) : fc (dget d k).2 v = fc d v := by
  unfold dget
  cases h : dfind d k with
  | some w => rfl
  | none =>
    show fc (d ++ [(k, 0)]) v = fc d v
    unfold fc
    rw [dfind_append]
    cases h2 : dfind d v with
    | some w => rfl
    | none =>
      by_cases hkv : k = v <;> simp [dfind, hkv]

theorem fc_dset_self (d : List (Int × Int)) (k v : Int) : fc (dset d k v) k = v := by
  induction d with
  | nil => simp [dset, fc, dfind]
  | cons p rest ih =>
    obtain ⟨k0, v0⟩ := p
    by_cases h : k0 = k
    · simp [dset, h, fc, dfind]
    · simp only [dset, if_neg h, fc, dfind]
      exact ih

theorem fc_dset_other (d : List (Int × Int)) (k v k' : Int) (h : k' ≠ k) :
    fc (dset d k v) k' = fc d k' := by
  induction d with
  | nil =>
    have : k ≠ k' := fun h2 => h h2.symm
    simp [dset, fc, dfind, this]
  | cons p rest ih =>
    obtain ⟨k0, v0⟩ := p
    by_cases h0 : k0 = k
    · subst h0
      have : k0 ≠ k' := fun h2 => h h2.symm
      simp [dset, fc, dfind, this]
    · simp only [dset, if_neg h0, fc, dfind]
      by_cases h1 : k0 = k'
      · rw [if_pos h1, if_pos h1]
      · rw [if_neg h1, if_neg h1]
        exact ih

theorem mem_dget (d : List (Int × Int)) (k : Int) (p : Int × Int)
    (h : p ∈ (dget d k).2) : p ∈ d ∨ p = (k, 0) := by
  unfold dget at h
  cases h2 : dfind d k with
  | some w => rw [h2] at h; exact Or.inl h
  | none =>
    rw [h2] at h
    simp only [List.mem_append, List.mem_singleton] at h
    exact h

theorem mem_dset (d : List (Int × Int)) (k v : Int) (p : Int × Int)
    (h : p ∈ dset d k v) : p ∈ d ∨ p = (k, v) := by
  induction d with
  | nil => simp [dset] at h; exact Or.inr h
  | cons q rest ih =>
    obtain ⟨k0, v0⟩ := q
    by_cases h0 : k0 = k
    · simp [dset, h0] at h
      rcases h with h | h
      · exact Or.inr h
      · exact Or.inl (List.mem_cons_of_mem _ h)
    · simp [dset, h0] at h
      rcases h with h | h
      · exact Or.inl (by simp [h])
      · rcases ih h with h2 | h2
        · exact Or.inl (List.mem_cons_of_mem _ h2)
        · exact Or.inr h2

theorem dkeys_dget (d : List (Int × Int)) (k : Int) :
    dkeys (dget d k).2 = dkeys d ∨ dkeys (dget d k).2 = dkeys d ++ [k] := by
  unfold dget
  cases h : dfind d k with
  | some w => exact Or.inl rfl
  | none => right; simp [dkeys]

theorem nodup_dget (d : List (Int × Int)) (k : Int) (h : (dkeys d).Nodup) :
    (dkeys (dget d k).2).Nodup := by
  unfold dget
  cases h2 : dfind d k with
  | some w => exact h
  | none =>
    show (dkeys (d ++ [(k, 0)])).Nodup
    have hk : k ∉ dkeys d := (dfind_eq_none_iff d k).mp h2
    simp only [dkeys, List.map_append, List.map_cons, List.map_nil] at *
    rw [List.nodup_append]
    refine ⟨h, List.nodup_singleton k, ?_⟩
    intro a ha hak
    simp only [List.mem_singleton] at hak
    exact hk (hak ▸ ha)

theorem dkeys_dset (d : List (Int × Int)) (k v : Int) :
    dkeys (dset d k v) = dkeys d ∨ dkeys (dset d k v) = dkeys d ++ [k] := by
  induction d with
  | nil => right; simp [dset, dkeys]
  | cons q rest ih =>
    obtain ⟨k0, v0⟩ := q
    by_cases h0 : k0 = k
    · left; simp [dset, h0, dkeys]
    · rcases ih with h | h
      · left; simp [dset, h0, dkeys] at h ⊢; exact h
      · right; simp [dset, h0, dkeys] at h ⊢; exact h

theorem nodup_dset (d : List (Int × Int)) (k v : Int) (h : (dkeys d).Nodup)
    (hk : dfind d k ≠ none) : (dkeys (dset d k v)).Nodup := by
  induction d with
  | nil => simp [dfind] at hk
  | cons q rest ih =>
    obtain ⟨k0, v0⟩ := q
    simp only [dkeys, List.map_cons, List.nodup_cons] at h
    by_cases h0 : k0 = k
    · subst h0
      have hd : dset ((k0, v0) :: rest) k0 v = (k0, v) :: rest := by simp [dset]
      rw [hd]
      simp only [dkeys, List.map_cons, List.nodup_cons]
      exact h
    · simp only [dfind, if_neg h0] at hk
      have hrest := ih h.2 hk
      simp only [dset, if_neg h0, dkeys, List.map_cons, List.nodup_cons]
      refine ⟨fun hmem => ?_, hrest⟩
      rcases dkeys_dset rest k v with he | he
      · rw [show List.map Prod.fst (dset rest k v) = dkeys (dset rest k v) from rfl,
          he] at hmem
        exact h.1 hmem
      · rw [show List.map Prod.fst (dset rest k v) = dkeys (dset rest k v) from rfl,
          he] at hmem
        rcases List.mem_append.mp hmem with hmem | hmem
        · exact h.1 hmem
        · simp only [List.mem_singleton] at hmem
          exact h0 hmem

theorem total_dget (d : List (Int × Int)) (k : Int) : totalOf (dget d k).2 = totalOf d := by
  unfold dget
  cases h : dfind d k with
  | some w => rfl
  | none => show totalOf (d ++ [(k, 0)]) = totalOf d; simp [totalOf]

theorem total_dset (d : List (Int × Int)) (k v w : Int) (h : dfind d k = some w) :
    totalOf (dset d k v) = totalOf d - w + v := by
  induction d with
  | nil => simp [dfind] at h
  | cons q rest ih =>
    obtain ⟨k0, v0⟩ := q
    by_cases h0 : k0 = k
    · simp only [dfind, if_pos h0, Option.some.injEq] at h
      subst h
      simp only [dset, if_pos h0, totalOf, List.map_cons, List.sum_cons]
      ring
    · simp only [dfind, if_neg h0] at h
      simp only [dset, if_neg h0, totalOf, List.map_cons, List.sum_cons]
      have := ih h
      simp only [totalOf] at this
      rw [this]
      ring

theorem fc_of_mem_nodup (d : List (Int × Int)) (p : Int × Int)
    (hn : (dkeys d).Nodup) (hp : p ∈ d) : fc d p.1 = p.2 := by
  induction d with
  | nil => simp at hp
  | cons q rest ih =>
    obtain ⟨k0, v0⟩ := q
    simp only [dkeys, List.map_cons, List.nodup_cons] at hn
    rcases List.mem_cons.mp hp with h | h
    · subst h
      simp [fc, dfind]
    · have hne : k0 ≠ p.1 := by
        intro he
        exact hn.1 (he ▸ List.mem_map_of_mem Prod.fst h)
      simp only [fc, dfind, if_neg hne]
      exact ih hn.2 h

theorem fc_nonneg_of_entries (d : List (Int × Int)) (hd : ∀ p ∈ d, 0 ≤ p.2)
    (k : Int) : 0 ≤ fc d k := by
  induction d with
  | nil => simp [fc, dfind]
  | cons q rest ih =>
    obtain ⟨k0, v0⟩ := q
    by_cases h0 : k0 = k
    · simpa [fc, dfind, h0] using hd (k0, v0) (List.mem_cons_self _ _)
    · simp only [fc, dfind, if_neg h0]
      exact ih fun p hp => hd p (List.mem_cons_of_mem _ hp)

theorem total_nonneg (d : List (Int × Int)) (hd : ∀ p ∈ d, 0 ≤ p.2) :
    0 ≤ totalOf d := by
  induction d with
  | nil => simp [totalOf]
  | cons q rest ih =>
    obtain ⟨k0, v0⟩ := q
    simp only [totalOf, List.map_cons, List.sum_cons]
    have h1 := hd (k0, v0) (List.mem_cons_self _ _)
    have h2 := ih fun p hp => hd p (List.mem_cons_of_mem _ hp)
    simp only [totalOf] at h2
    omega

theorem total_cons (k0 v0 : Int) (rest : List (Int × Int)) :
    totalOf ((k0, v0) :: rest) = v0 + totalOf rest := by
  simp [totalOf]

theorem fc_le_total (d : List (Int × Int)) (hd : ∀ p ∈ d, 0 ≤ p.2) (k : Int) :
    fc d k ≤ totalOf d := by
  induction d with
  | nil => simp [fc, dfind, totalOf]
  | cons q rest ih =>
    obtain ⟨k0, v0⟩ := q
    have h1 := hd (k0, v0) (List.mem_cons_self _ _)
    have h2 := total_nonneg rest fun p hp => hd p (List.mem_cons_of_mem _ hp)
    have h3 := ih fun p hp => hd p (List.mem_cons_of_mem _ hp)
    rw [total_cons]
    by_cases h0 : k0 = k
    · simp only [fc, dfind, if_pos h0, Option.getD_some]
      omega
    · simp only [fc, dfind, if_neg h0]
      have : fc rest k ≤ totalOf rest := h3
      simp only [fc] at this
      omega

theorem fc_two_le_total (d : List (Int × Int)) (hd : ∀ p ∈ d, 0 ≤ p.2)
    (k k' : Int) (hkk : k ≠ k') : fc d k + fc d k' ≤ totalOf d := by
  induction d with
  | nil => simp [fc, dfind, totalOf]
  | cons q rest ih =>
    obtain ⟨k0, v0⟩ := q
    have h1 := hd (k0, v0) (List.mem_cons_self _ _)
    have hdr : ∀ p ∈ rest, 0 ≤ p.2 := fun p hp => hd p (List.mem_cons_of_mem _ hp)
    rw [total_cons]
    by_cases h0 : k0 = k
    · have hne : ¬k0 = k' := fun h2 => hkk (h0 ▸ h2)
      have h3 := fc_le_total rest hdr k'
      simp only [fc, dfind, if_pos h0, if_neg hne, Option.getD_some]
      simp only [fc] at h3
      omega
    · by_cases h0b : k0 = k'
      · have h3 := fc_le_total rest hdr k
        simp only [fc, dfind, if_pos h0b, if_neg h0, Option.getD_some]
        simp only [fc] at h3
        omega
      · have h3 := ih hdr
        simp only [fc, dfind, if_neg h0, if_neg h0b]
        simp only [fc] at h3
        omega

theorem fc_zero_of_total_zero (d : List (Int × Int)) (hd : ∀ p ∈ d, 0 ≤ p.2)
    (h0 : totalOf d = 0) (k : Int) : fc d k = 0 := by
  have h1 := fc_le_total d hd k
  have h2 := fc_nonneg_of_entries d hd k
  omega

/-! Lemmas about `heapPush` (sorted-sequence `heappush`). -/

theorem mem_heapPush (h : List Int) (x a : Int) :
    a ∈ heapPush h x ↔ a = x ∨ a ∈ h := by
  induction h with
  | nil => simp [heapPush]
  | cons y rest ih =>
    by_cases hc : x ≤ y
    · simp [heapPush, hc]
    · simp [heapPush, hc, ih]
      tauto

theorem length_heapPush (h : List Int) (x : Int) :
    (heapPush h x).length = h.length + 1 := by
  induction h with
  | nil => simp [heapPush]
  | cons y rest ih =>
    by_cases hc : x ≤ y <;> simp [heapPush, hc, ih]

theorem cnt_nonneg (l : List Int) (a : Int) : 0 ≤ cnt l a := by
  induction l with
  | nil => simp [cnt]
  | cons y rest ih =>
    by_cases hy : y = a <;> simp [cnt, hy] <;> omega

theorem cnt_heapPush (h : List Int) (x a : Int) :
    cnt (heapPush h x) a = cnt h a + (if x = a then 1 else 0) := by
  induction h with
  | nil => simp [heapPush, cnt]
  | cons y rest ih =>
    by_cases hc : x ≤ y
    · simp only [heapPush, if_pos hc, cnt]
      ring
    · simp only [heapPush, if_neg hc, cnt, ih]
      ring

theorem cnt_pos_mem (l : List Int) (a : Int) (h : 0 < cnt l a) : a ∈ l := by
  induction l with
  | nil => simp [cnt] at h
  | cons y rest ih =>
    by_cases hy : y = a
    · exact hy ▸ List.mem_cons_self _ _
    · simp only [cnt, if_neg hy, zero_add] at h
      exact List.mem_cons_of_mem _ (ih h)

theorem mem_cnt_pos (l : List Int) (a : Int) (h : a ∈ l) : 0 < cnt l a := by
  induction l with
  | nil => simp at h
  | cons y rest ih =>
    rcases List.mem_cons.mp h with h1 | h1
    · have := cnt_nonneg rest a
      simp [cnt, h1.symm]
      omega
    · have := ih h1
      have h2 : (0 : Int) ≤ if y = a then 1 else 0 := by positivity
      simp only [cnt]
      omega

theorem pairwise_heapPush (h : List Int) (x : Int)
    (hs : List.Pairwise (· ≤ ·) h) : List.Pairwise (· ≤ ·) (heapPush h x) := by
  induction h with
  | nil => simp [heapPush]
  | cons y rest ih =>
    rcases List.pairwise_cons.mp hs with ⟨hy, hrest⟩
    by_cases hc : x ≤ y
    · simp only [heapPush, if_pos hc]
      refine List.pairwise_cons.mpr ⟨?_, hs⟩
      intro a ha
      rcases List.mem_cons.mp ha with h1 | h1
      · exact h1 ▸ hc
      · exact le_trans hc (hy a h1)
    · simp only [heapPush, if_neg hc]
      refine List.pairwise_cons.mpr ⟨?_, ih hrest⟩
      intro a ha
      rcases (mem_heapPush rest x a).mp ha with h1 | h1
      · subst h1; omega
      · exact hy a h1

theorem heapPush_head (h : List Int) (x : Int) (P : Int → Prop) (hx : P x)
    (hh : ∀ y t, h = y :: t → P y) :
    ∀ z t2, heapPush h x = z :: t2 → P z := by
  cases h with
  | nil =>
    intro z t2 he
    simp only [heapPush] at he
    cases he
    exact hx
  | cons y t =>
    intro z t2 he
    by_cases hc : x ≤ y
    · simp only [heapPush, if_pos hc] at he
      cases he
      exact hx
    · simp only [heapPush, if_neg hc] at he
      cases he
      exact hh y t rfl

open MedianContainer

/-! Lemmas about the prune loops. -/

theorem fc_dstep (d : List (Int × Int)) (k v : Int) :
    fc (dstep d k) v = if v = k then fc d k - 1 else fc d v := by
  unfold dstep
  by_cases h : v = k
  · subst h
    rw [if_pos rfl, fc_dset_self, dget_fst, fc_dget]
  · rw [if_neg h, fc_dset_other _ _ _ _ h, fc_dget, fc_dget]

theorem pruneLL_cons (t : Int) (rest : List Int) (d : List (Int × Int)) :
    pruneLL (t :: rest) d =
      if 0 < fc d (-t) then pruneLL rest (dstep d (-t))
      else (t :: rest, (dget d (-t)).2) := by
  simp only [pruneLL, dstep, dget_fst, gt_iff_lt]

theorem pruneRL_cons (t : Int) (rest : List Int) (d : List (Int × Int)) :
    pruneRL (t :: rest) d =
      if 0 < fc d t then pruneRL rest (dstep d t)
      else (t :: rest, (dget d t).2) := by
  simp only [pruneRL, dstep, dget_fst, gt_iff_lt]

theorem pruneLL_suffix (l : List Int) : ∀ d, (pruneLL l d).1 <:+ l := by
  induction l with
  | nil => intro d; exact List.nil_suffix
  | cons t rest ih =>
    intro d
    rw [pruneLL_cons]
    by_cases hc : 0 < fc d (-t)
    · rw [if_pos hc]
      exact (ih (dstep d (-t))).trans (List.suffix_cons t rest)
    · rw [if_neg hc]

theorem pruneRL_suffix (l : List Int) : ∀ d, (pruneRL l d).1 <:+ l := by
  induction l with
  | nil => intro d; exact List.nil_suffix
  | cons t rest ih =>
    intro d
    rw [pruneRL_cons]
    by_cases hc : 0 < fc d t
    · rw [if_pos hc]
      exact (ih (dstep d t)).trans (List.suffix_cons t rest)
    · rw [if_neg hc]

theorem pruneLL_fc_nonneg (l : List Int) :
    ∀ d, (∀ v, 0 ≤ fc d v) → ∀ v, 0 ≤ fc (pruneLL l d).2 v := by
  induction l with
  | nil => intro d hd v; exact hd v
  | cons t rest ih =>
    intro d hd v
    rw [pruneLL_cons]
    by_cases hc : 0 < fc d (-t)
    · rw [if_pos hc]
      refine ih _ (fun w => ?_) v
      rw [fc_dstep]
      by_cases hw : w = -t
      · rw [if_pos hw]; omega
      · rw [if_neg hw]; exact hd w
    · rw [if_neg hc]
      show 0 ≤ fc (dget d (-t)).2 v
      rw [fc_dget]
      exact hd v

theorem pruneRL_fc_nonneg (l : List Int) :
    ∀ d, (∀ v, 0 ≤ fc d v) → ∀ v, 0 ≤ fc (pruneRL l d).2 v := by
  induction l with
  | nil => intro d hd v; exact hd v
  | cons t rest ih =>
    intro d hd v
    rw [pruneRL_cons]
    by_cases hc : 0 < fc d t
    · rw [if_pos hc]
      refine ih _ (fun w => ?_) v
      rw [fc_dstep]
      by_cases hw : w = t
      · rw [if_pos hw]; omega
      · rw [if_neg hw]; exact hd w
    · rw [if_neg hc]
      show 0 ≤ fc (dget d t).2 v
      rw [fc_dget]
      exact hd v

theorem pruneLL_ledger (l : List Int) :
    ∀ d e, cnt (pruneLL l d).1 e - fc (pruneLL l d).2 (-e) = cnt l e - fc d (-e) := by
  induction l with
  | nil => intro d e; rfl
  | cons t rest ih =>
    intro d e
    rw [pruneLL_cons]
    by_cases hc : 0 < fc d (-t)
    · rw [if_pos hc]
      have h1 := ih (dstep d (-t)) e
      have h2 : fc (dstep d (-t)) (-e) = if -e = -t then fc d (-t) - 1 else fc d (-e) :=
        fc_dstep d (-t) (-e)
      by_cases he : e = t
      · subst he
        rw [if_pos rfl] at h2
        simp only [cnt, if_true, eq_self_iff_true]
        omega
      · have hne : ¬(-e = -t) := fun h3 => he (neg_injective h3)
        rw [if_neg hne] at h2
        simp only [cnt]
        rw [if_neg (fun h3 : t = e => he h3.symm)]
        omega
    · rw [if_neg hc]
      show cnt (t :: rest) e - fc (dget d (-t)).2 (-e) = cnt (t :: rest) e - fc d (-e)
      rw [fc_dget]

theorem pruneRL_ledger (l : List Int) :
    ∀ d e, cnt (pruneRL l d).1 e - fc (pruneRL l d).2 e = cnt l e - fc d e := by
  induction l with
  | nil => intro d e; rfl
  | cons t rest ih =>
    intro d e
    rw [pruneRL_cons]
    by_cases hc : 0 < fc d t
    · rw [if_pos hc]
      have h1 := ih (dstep d t) e
      have h2 : fc (dstep d t) e = if e = t then fc d t - 1 else fc d e :=
        fc_dstep d t e
      by_cases he : e = t
      · subst he
        rw [if_pos rfl] at h2
        simp only [cnt, if_true, eq_self_iff_true]
        omega
      · rw [if_neg he] at h2
        simp only [cnt]
        rw [if_neg (fun h3 : t = e => he h3.symm)]
        omega
    · rw [if_neg hc]
      show cnt (t :: rest) e - fc (dget d t).2 e = cnt (t :: rest) e - fc d e
      rw [fc_dget]

theorem pruneLL_head_zero (l : List Int) :
    ∀ d, (∀ v, 0 ≤ fc d v) → ∀ t2 r2, (pruneLL l d).1 = t2 :: r2 →
      fc (pruneLL l d).2 (-t2) = 0 := by
  induction l with
  | nil => intro d hd t2 r2 h; simp [pruneLL] at h
  | cons t rest ih =>
    intro d hd t2 r2 h
    rw [pruneLL_cons] at *
    by_cases hc : 0 < fc d (-t)
    · rw [if_pos hc] at *
      refine ih _ (fun w => ?_) t2 r2 h
      rw [fc_dstep]
      by_cases hw : w = -t
      · rw [if_pos hw]; omega
      · rw [if_neg hw]; exact hd w
    · rw [if_neg hc] at *
      have ht : t2 = t := by
        have h4 : t :: rest = t2 :: r2 := h
        injection h4 with h5 h6
        exact h5.symm
      subst ht
      show fc (dget d (-t2)).2 (-t2) = 0
      rw [fc_dget]
      have := hd (-t2)
      omega

theorem pruneRL_head_zero (l : List Int) :
    ∀ d, (∀ v, 0 ≤ fc d v) → ∀ t2 r2, (pruneRL l d).1 = t2 :: r2 →
      fc (pruneRL l d).2 t2 = 0 := by
  induction l with
  | nil => intro d hd t2 r2 h; simp [pruneRL] at h
  | cons t rest ih =>
    intro d hd t2 r2 h
    rw [pruneRL_cons] at *
    by_cases hc : 0 < fc d t
    · rw [if_pos hc] at *
      refine ih _ (fun w => ?_) t2 r2 h
      rw [fc_dstep]
      by_cases hw : w = t
      · rw [if_pos hw]; omega
      · rw [if_neg hw]; exact hd w
    · rw [if_neg hc] at *
      have ht : t2 = t := by
        have h4 : t :: rest = t2 :: r2 := h
        injection h4 with h5 h6
        exact h5.symm
      subst ht
      show fc (dget d t2).2 t2 = 0
      rw [fc_dget]
      have := hd t2
      omega

theorem pruneLL_zero_stable (l : List Int) :
    ∀ d w, fc d w = 0 → fc (pruneLL l d).2 w = 0 := by
  induction l with
  | nil => intro d w hw; exact hw
  | cons t rest ih =>
    intro d w hw
    rw [pruneLL_cons]
    by_cases hc : 0 < fc d (-t)
    · rw [if_pos hc]
      refine ih _ w ?_
      rw [fc_dstep]
      have hne : ¬w = -t := fun h => by rw [h] at hw; omega
      rw [if_neg hne]
      exact hw
    · rw [if_neg hc]
      show fc (dget d (-t)).2 w = 0
      rw [fc_dget]
      exact hw

theorem pruneRL_zero_stable (l : List Int) :
    ∀ d w, fc d w = 0 → fc (pruneRL l d).2 w = 0 := by
  induction l with
  | nil => intro d w hw; exact hw
  | cons t rest ih =>
    intro d w hw
    rw [pruneRL_cons]
    by_cases hc : 0 < fc d t
    · rw [if_pos hc]
      refine ih _ w ?_
      rw [fc_dstep]
      have hne : ¬w = t := fun h => by rw [h] at hw; omega
      rw [if_neg hne]
      exact hw
    · rw [if_neg hc]
      show fc (dget d t).2 w = 0
      rw [fc_dget]
      exact hw

theorem pruneLL_drain (l : List Int) :
    ∀ d, (∀ e ∈ l, cnt l e ≤ fc d (-e)) → (pruneLL l d).1 = [] := by
  induction l with
  | nil => intro d hd; rfl
  | cons t rest ih =>
    intro d hd
    have hmem := mem_cnt_pos (t :: rest) t (List.mem_cons_self _ _)
    have ht := hd t (List.mem_cons_self _ _)
    have hc : 0 < fc d (-t) := lt_of_lt_of_le hmem ht
    rw [pruneLL_cons, if_pos hc]
    refine ih _ (fun e he => ?_)
    have he2 := hd e (List.mem_cons_of_mem _ he)
    rw [fc_dstep]
    by_cases het : e = t
    · subst het
      rw [if_pos rfl]
      simp only [cnt, if_true, eq_self_iff_true] at he2
      omega
    · have : ¬(-e = -t) := fun h3 => het (neg_injective h3)
      rw [if_neg this]
      simp only [cnt, if_neg (fun h3 : t = e => het h3.symm)] at he2
      omega

theorem pruneRL_drain (l : List Int) :
    ∀ d, (∀ e ∈ l, cnt l e ≤ fc d e) → (pruneRL l d).1 = [] := by
  induction l with
  | nil => intro d hd; rfl
  | cons t rest ih =>
    intro d hd
    have hmem := mem_cnt_pos (t :: rest) t (List.mem_cons_self _ _)
    have ht := hd t (List.mem_cons_self _ _)
    have hc : 0 < fc d t := lt_of_lt_of_le hmem ht
    rw [pruneRL_cons, if_pos hc]
    refine ih _ (fun e he => ?_)
    have he2 := hd e (List.mem_cons_of_mem _ he)
    rw [fc_dstep]
    by_cases het : e = t
    · subst het
      rw [if_pos rfl]
      simp only [cnt, if_true, eq_self_iff_true] at he2
      omega
    · rw [if_neg het]
      simp only [cnt, if_neg (fun h3 : t = e => het h3.symm)] at he2
      omega

theorem pruneLL_block (l : List Int) :
    ∀ d e, (∀ v, 0 ≤ fc d v) → fc d (-e) < cnt l e → (pruneLL l d).1 ≠ [] := by
  induction l with
  | nil =>
    intro d e hd hlt
    simp only [cnt] at hlt
    have := hd (-e)
    omega
  | cons t rest ih =>
    intro d e hd hlt
    rw [pruneLL_cons]
    by_cases hc : 0 < fc d (-t)
    · rw [if_pos hc]
      refine ih _ e (fun w => ?_) ?_
      · rw [fc_dstep]
        by_cases hw : w = -t
        · rw [if_pos hw]; omega
        · rw [if_neg hw]; exact hd w
      · rw [fc_dstep]
        by_cases het : e = t
        · subst het
          rw [if_pos rfl]
          simp only [cnt, if_true, eq_self_iff_true] at hlt
          omega
        · have : ¬(-e = -t) := fun h3 => het (neg_injective h3)
          rw [if_neg this]
          simp only [cnt, if_neg (fun h3 : t = e => het h3.symm)] at hlt
          omega
    · rw [if_neg hc]
      simp

theorem pruneRL_block (l : List Int) :
    ∀ d e, (∀ v, 0 ≤ fc d v) → fc d e < cnt l e → (pruneRL l d).1 ≠ [] := by
  induction l with
  | nil =>
    intro d e hd hlt
    simp only [cnt] at hlt
    have := hd e
    omega
  | cons t rest ih =>
    intro d e hd hlt
    rw [pruneRL_cons]
    by_cases hc : 0 < fc d t
    · rw [if_pos hc]
      refine ih _ e (fun w => ?_) ?_
      · rw [fc_dstep]
        by_cases hw : w = t
        · rw [if_pos hw]; omega
        · rw [if_neg hw]; exact hd w
      · rw [fc_dstep]
        by_cases het : e = t
        · subst het
          rw [if_pos rfl]
          simp only [cnt, if_true, eq_self_iff_true] at hlt
          omega
        · rw [if_neg het]
          simp only [cnt, if_neg (fun h3 : t = e => het h3.symm)] at hlt
          omega
    · rw [if_neg hc]
      simp

/-! State-level prune lemmas. -/

theorem prune_left_left (s : MedianContainer) :
    (prune_left s).left = (pruneLL s.left s.delayed).1 := rfl

theorem prune_left_delayed (s : MedianContainer) :
    (prune_left s).delayed = (pruneLL s.left s.delayed).2 := rfl

theorem prune_left_right (s : MedianContainer) : (prune_left s).right = s.right := rfl

theorem prune_left_freq (s : MedianContainer) : (prune_left s).freq = s.freq := rfl

theorem prune_left_n (s : MedianContainer) : (prune_left s).n = s.n := rfl

theorem prune_left_ls (s : MedianContainer) :
    (prune_left s).left_size = s.left_size := rfl

theorem prune_left_rs (s : MedianContainer) :
    (prune_left s).right_size = s.right_size := rfl

theorem prune_right_right (s : MedianContainer) :
    (prune_right s).right = (pruneRL s.right s.delayed).1 := rfl

theorem prune_right_delayed (s : MedianContainer) :
    (prune_right s).delayed = (pruneRL s.right s.delayed).2 := rfl

theorem prune_right_left (s : MedianContainer) : (prune_right s).left = s.left := rfl

theorem prune_right_freq (s : MedianContainer) : (prune_right s).freq = s.freq := rfl

theorem prune_right_n (s : MedianContainer) : (prune_right s).n = s.n := rfl

theorem prune_right_ls (s : MedianContainer) :
    (prune_right s).left_size = s.left_size := rfl

theorem prune_right_rs (s : MedianContainer) :
    (prune_right s).right_size = s.right_size := rfl

theorem coreInv_prune_left (s : MedianContainer) (h : CoreInv s) :
    CoreInv (prune_left s) := by
  have hsub : (pruneLL s.left s.delayed).1 <:+ s.left := pruneLL_suffix s.left s.delayed
  refine ⟨?_, ?_, ?_, ?_, ?_, ?_, ?_, ?_, ?_⟩
  · rw [prune_left_left]
    exact h.sortedL.sublist hsub.sublist
  · rw [prune_left_right]
    exact h.sortedR
  · intro u hu v hv
    rw [prune_left_left] at hu
    rw [prune_left_right] at hv
    exact h.order u (hsub.subset hu) v hv
  · intro v
    rw [prune_left_delayed]
    exact pruneLL_fc_nonneg s.left s.delayed h.dnn v
  · intro p hp
    rw [prune_left_freq] at hp
    exact h.fess p hp
  · intro v
    rw [prune_left_left, prune_left_right, prune_left_freq, prune_left_delayed]
    have h1 := pruneLL_ledger s.left s.delayed (-v)
    rw [neg_neg] at h1
    have h2 := h.ledger v
    omega
  · rw [prune_left_freq]
    exact h.nodupF
  · rw [prune_left_n, prune_left_freq]
    exact h.ntotal
  · rw [prune_left_ls, prune_left_rs, prune_left_n]
    exact h.sizes

theorem coreInv_prune_right (s : MedianContainer) (h : CoreInv s) :
    CoreInv (prune_right s) := by
  have hsub : (pruneRL s.right s.delayed).1 <:+ s.right := pruneRL_suffix s.right s.delayed
  refine ⟨?_, ?_, ?_, ?_, ?_, ?_, ?_, ?_, ?_⟩
  · rw [prune_right_left]
    exact h.sortedL
  · rw [prune_right_right]
    exact h.sortedR.sublist hsub.sublist
  · intro u hu v hv
    rw [prune_right_left] at hu
    rw [prune_right_right] at hv
    exact h.order u hu v (hsub.subset hv)
  · intro v
    rw [prune_right_delayed]
    exact pruneRL_fc_nonneg s.right s.delayed h.dnn v
  · intro p hp
    rw [prune_right_freq] at hp
    exact h.fess p hp
  · intro v
    rw [prune_right_left, prune_right_right, prune_right_freq, prune_right_delayed]
    have h1 := pruneRL_ledger s.right s.delayed v
    have h2 := h.ledger v
    omega
  · rw [prune_right_freq]
    exact h.nodupF
  · rw [prune_right_n, prune_right_freq]
    exact h.ntotal
  · rw [prune_right_ls, prune_right_rs, prune_right_n]
    exact h.sizes

theorem topR_prune_right (s : MedianContainer) (hd : ∀ v, 0 ≤ fc s.delayed v) :
    TopR (prune_right s) := by
  intro r t hrt
  rw [prune_right_right] at hrt
  rw [prune_right_delayed]
  exact pruneRL_head_zero s.right s.delayed hd r t hrt

theorem topR_prune_left (s : MedianContainer) (h : TopR s) : TopR (prune_left s) := by
  intro r t hrt
  rw [prune_left_right] at hrt
  rw [prune_left_delayed]
  exact pruneLL_zero_stable s.left s.delayed r (h r t hrt)

/-! Rebalance characterization and invariant preservation. -/

theorem rebalance_cases (s s1 : MedianContainer) (hr : rebalance s = some s1) :
    (¬s.left_size < s.right_size ∧ ¬s.left_size - s.right_size > 1 ∧ s1 = s) ∨
    (s.left_size < s.right_size ∧ ∃ v rest, (prune_right s).right = v :: rest ∧
      s1 = prune_right (moveRL (prune_right s) v rest)) ∨
    (¬s.left_size < s.right_size ∧ s.left_size - s.right_size > 1 ∧ ∃ t rest,
      (prune_left s).left = t :: rest ∧
      s1 = prune_left (moveLR (prune_left s) t rest)) := by
  by_cases h1 : s.left_size < s.right_size
  · right; left
    refine ⟨h1, ?_⟩
    rw [rebalance, if_pos h1] at hr
    cases hR : (prune_right s).right with
    | nil => rw [hR] at hr; exact absurd hr (by simp)
    | cons v rest =>
      rw [hR] at hr
      simp only [Option.some.injEq] at hr
      exact ⟨v, rest, rfl, hr.symm⟩
  · by_cases h2 : s.left_size - s.right_size > 1
    · right; right
      refine ⟨h1, h2, ?_⟩
      rw [rebalance, if_neg h1, if_pos h2] at hr
      cases hL : (prune_left s).left with
      | nil => rw [hL] at hr; exact absurd hr (by simp)
      | cons t rest =>
        rw [hL] at hr
        simp only [Option.some.injEq] at hr
        exact ⟨t, rest, rfl, hr.symm⟩
    · left
      rw [rebalance, if_neg h1, if_neg h2] at hr
      simp only [Option.some.injEq] at hr
      exact ⟨h1, h2, hr.symm⟩

theorem moveRL_fields (s : MedianContainer) (v : Int) (rest : List Int) :
    (moveRL s v rest).left = heapPush s.left (-v) ∧ (moveRL s v rest).right = rest ∧
    (moveRL s v rest).left_size = s.left_size + 1 ∧
    (moveRL s v rest).right_size = s.right_size - 1 ∧
    (moveRL s v rest).delayed = s.delayed ∧ (moveRL s v rest).freq = s.freq ∧
    (moveRL s v rest).n = s.n :=
  ⟨rfl, rfl, rfl, rfl, rfl, rfl, rfl⟩

theorem moveLR_fields (s : MedianContainer) (t : Int) (rest : List Int) :
    (moveLR s t rest).left = rest ∧ (moveLR s t rest).right = heapPush s.right (-t) ∧
    (moveLR s t rest).left_size = s.left_size - 1 ∧
    (moveLR s t rest).right_size = s.right_size + 1 ∧
    (moveLR s t rest).delayed = s.delayed ∧ (moveLR s t rest).freq = s.freq ∧
    (moveLR s t rest).n = s.n :=
  ⟨rfl, rfl, rfl, rfl, rfl, rfl, rfl⟩

theorem moveRL_coreInv (s : MedianContainer) (v : Int) (rest : List Int)
    (h : CoreInv s) (hR : s.right = v :: rest) : CoreInv (moveRL s v rest) := by
  have hsR : List.Pairwise (· ≤ ·) (v :: rest) := hR ▸ h.sortedR
  have hvle : ∀ w ∈ rest, v ≤ w := (List.pairwise_cons.mp hsR).1
  refine ⟨?_, ?_, ?_, h.dnn, h.fess, ?_, h.nodupF, h.ntotal, ?_⟩
  · exact pairwise_heapPush s.left (-v) h.sortedL
  · exact (List.pairwise_cons.mp hsR).2
  · intro u hu w hw
    show -u ≤ w
    rcases (mem_heapPush s.left (-v) u).mp hu with h1 | h1
    · subst h1
      rw [neg_neg]
      exact hvle w hw
    · exact h.order u h1 w (hR ▸ List.mem_cons_of_mem v hw)
  · intro w
    show cnt (heapPush s.left (-v)) (-w) + cnt rest w = fc s.freq w + fc s.delayed w
    have h1 := h.ledger w
    rw [hR] at h1
    rw [cnt_heapPush]
    by_cases hvw : v = w
    · subst hvw
      simp only [cnt, if_true, eq_self_iff_true] at h1 ⊢
      omega
    · have hne : ¬(-v = -w) := fun h3 => hvw (neg_injective h3)
      rw [if_neg hne]
      simp only [cnt, if_neg hvw] at h1
      omega
  · show s.left_size + 1 + (s.right_size - 1) = s.n
    have := h.sizes
    omega

theorem moveLR_coreInv (s : MedianContainer) (t : Int) (rest : List Int)
    (h : CoreInv s) (hL : s.left = t :: rest) : CoreInv (moveLR s t rest) := by
  have hsL : List.Pairwise (· ≤ ·) (t :: rest) := hL ▸ h.sortedL
  have htle : ∀ u ∈ rest, t ≤ u := (List.pairwise_cons.mp hsL).1
  refine ⟨?_, ?_, ?_, h.dnn, h.fess, ?_, h.nodupF, h.ntotal, ?_⟩
  · exact (List.pairwise_cons.mp hsL).2
  · exact pairwise_heapPush s.right (-t) h.sortedR
  · intro u hu w hw
    show -u ≤ w
    rcases (mem_heapPush s.right (-t) w).mp hw with h1 | h1
    · subst h1
      have := htle u hu
      omega
    · exact h.order u (hL ▸ List.mem_cons_of_mem t hu) w h1
  · intro w
    show cnt rest (-w) + cnt (heapPush s.right (-t)) w = fc s.freq w + fc s.delayed w
    have h1 := h.ledger w
    rw [hL] at h1
    rw [cnt_heapPush]
    by_cases htw : -t = w
    · rw [if_pos htw]
      have h2 : t = -w := by omega
      simp only [cnt, if_pos h2] at h1
      omega
    · rw [if_neg htw]
      have h2 : ¬t = -w := fun h3 => htw (by omega)
      simp only [cnt, if_neg h2] at h1
      omega
  · show s.left_size - 1 + (s.right_size + 1) = s.n
    have := h.sizes
    omega

theorem moveLR_topR (s : MedianContainer) (t : Int) (rest : List Int)
    (ht : TopR s) (hz : fc s.delayed (-t) = 0) : TopR (moveLR s t rest) := by
  intro r t2 hrt
  show fc s.delayed r = 0
  have hshape : (moveLR s t rest).right = heapPush s.right (-t) := rfl
  rw [hshape] at hrt
  exact heapPush_head s.right (-t) (fun z => fc s.delayed z = 0) hz
    (fun y yt hy => ht y yt hy) r t2 hrt

theorem rebalance_inv (s s1 : MedianContainer) (hc : CoreInv s) (ht : TopR s)
    (hze : ZeroE s) (hls0 : 0 ≤ s.left_size) (hrs0 : 0 ≤ s.right_size)
    (hd1 : -1 ≤ s.left_size - s.right_size) (hd2 : s.left_size - s.right_size ≤ 2)
    (hr : rebalance s = some s1) :
    CoreInv s1 ∧ TopR s1 ∧ ZeroE s1 ∧ 0 ≤ s1.left_size - s1.right_size ∧
      s1.left_size - s1.right_size ≤ 1 := by
  rcases rebalance_cases s s1 hr with ⟨h1, h2, rfl⟩ | ⟨h1, v, rest, hR, rfl⟩ |
    ⟨h1, h2, t, rest, hL, rfl⟩
  · exact ⟨hc, ht, hze, by omega, by omega⟩
  · have hcR := coreInv_prune_right s hc
    have hm := moveRL_coreInv (prune_right s) v rest hcR hR
    refine ⟨coreInv_prune_right _ hm, topR_prune_right _ hm.dnn, ?_, ?_, ?_⟩
    · intro h0
      have hnn : s.n = 0 := h0
      have := hc.sizes
      omega
    · rw [prune_right_ls, prune_right_rs]
      show 0 ≤ (moveRL (prune_right s) v rest).left_size -
        (moveRL (prune_right s) v rest).right_size
      rw [(moveRL_fields _ _ _).2.2.1, (moveRL_fields _ _ _).2.2.2.1,
        prune_right_ls, prune_right_rs]
      omega
    · rw [prune_right_ls, prune_right_rs]
      show (moveRL (prune_right s) v rest).left_size -
        (moveRL (prune_right s) v rest).right_size ≤ 1
      rw [(moveRL_fields _ _ _).2.2.1, (moveRL_fields _ _ _).2.2.2.1,
        prune_right_ls, prune_right_rs]
      omega
  · have hcL := coreInv_prune_left s hc
    have hm := moveLR_coreInv (prune_left s) t rest hcL hL
    have hz : fc (prune_left s).delayed (-t) = 0 := by
      rw [prune_left_delayed]
      exact pruneLL_head_zero s.left s.delayed hc.dnn t rest
        (by rw [← prune_left_left]; exact hL)
    have htop := moveLR_topR (prune_left s) t rest (topR_prune_left s ht) hz
    refine ⟨coreInv_prune_left _ hm, topR_prune_left _ htop, ?_, ?_, ?_⟩
    · intro h0
      have hnn : s.n = 0 := h0
      have := hc.sizes
      omega
    · rw [prune_left_ls, prune_left_rs]
      show 0 ≤ (moveLR (prune_left s) t rest).left_size -
        (moveLR (prune_left s) t rest).right_size
      rw [(moveLR_fields _ _ _).2.2.1, (moveLR_fields _ _ _).2.2.2.1,
        prune_left_ls, prune_left_rs]
      omega
    · rw [prune_left_ls, prune_left_rs]
      show (moveLR (prune_left s) t rest).left_size -
        (moveLR (prune_left s) t rest).right_size ≤ 1
      rw [(moveLR_fields _ _ _).2.2.1, (moveLR_fields _ _ _).2.2.2.1,
        prune_left_ls, prune_left_rs]
      omega

theorem rebalance_freq_n (s s1 : MedianContainer) (hr : rebalance s = some s1) :
    s1.freq = s.freq ∧ s1.n = s.n := by
  rcases rebalance_cases s s1 hr with ⟨h1, h2, rfl⟩ | ⟨h1, v, rest, hR, rfl⟩ |
    ⟨h1, h2, t, rest, hL, rfl⟩
  · exact ⟨rfl, rfl⟩
  · exact ⟨rfl, rfl⟩
  · exact ⟨rfl, rfl⟩

/-! Helper lemmas for the operation analyses. -/

theorem dfind_dget_self (d : List (Int × Int)) (k : Int) :
    dfind (dget d k).2 k = some (fc d k) := by
  unfold dget
  cases h : dfind d k with
  | some v =>
    show dfind d k = some (fc d k)
    rw [h]
    simp [fc, h]
  | none =>
    show dfind (d ++ [(k, 0)]) k = some (fc d k)
    rw [dfind_append, h]
    simp [fc, h, dfind]

theorem cnt_zero_of_not_mem (l : List Int) (a : Int) (h : a ∉ l) : cnt l a = 0 := by
  have h1 := mt (cnt_pos_mem l a) h
  have h2 := cnt_nonneg l a
  omega

theorem sorted_head_le (r : Int) (t : List Int)
    (h : List.Pairwise (· ≤ ·) (r :: t)) : ∀ w ∈ r :: t, r ≤ w := by
  intro w hw
  rcases List.mem_cons.mp hw with h1 | h1
  · omega
  · exact (List.pairwise_cons.mp h).1 w h1

theorem not_mem_of_lt_head (r : Int) (t : List Int)
    (h : List.Pairwise (· ≤ ·) (r :: t)) (a : Int) (ha : a < r) : a ∉ r :: t := by
  intro hmem
  have := sorted_head_le r t h a hmem
  omega

theorem heapPush_head_cases (h : List Int) (x z : Int) (t2 : List Int)
    (he : heapPush h x = z :: t2) :
    (z = x ∧ (h = [] ∨ ∃ y yt, h = y :: yt ∧ x ≤ y)) ∨
    (∃ y yt, h = y :: yt ∧ z = y ∧ ¬x ≤ y) := by
  cases h with
  | nil =>
    simp only [heapPush] at he
    injection he with h1 h2
    exact Or.inl ⟨h1.symm, Or.inl rfl⟩
  | cons y yt =>
    by_cases hc : x ≤ y
    · rw [show heapPush (y :: yt) x = x :: y :: yt by simp [heapPush, hc]] at he
      injection he with h1 h2
      exact Or.inl ⟨h1.symm, Or.inr ⟨y, yt, rfl, hc⟩⟩
    · rw [show heapPush (y :: yt) x = y :: heapPush yt x by simp [heapPush, hc]] at he
      injection he with h1 h2
      exact Or.inr ⟨y, yt, rfl, h1.symm, hc⟩

theorem bumpFreq_fields (x : Int) (s : MedianContainer) :
    (bumpFreq x s).left = s.left ∧ (bumpFreq x s).right = s.right ∧
    (bumpFreq x s).left_size = s.left_size ∧
    (bumpFreq x s).right_size = s.right_size ∧
    (bumpFreq x s).delayed = s.delayed ∧ (bumpFreq x s).n = s.n + 1 :=
  ⟨rfl, rfl, rfl, rfl, rfl, rfl⟩

theorem fc_bumpFreq (x : Int) (s : MedianContainer) (v : Int) :
    fc (bumpFreq x s).freq v =
      if v = x then fc s.freq x + 1 else fc s.freq v := by
  show fc (dset (dget s.freq x).2 x ((dget s.freq x).1 + 1)) v = _
  by_cases h : v = x
  · subst h
    rw [if_pos rfl, fc_dset_self, dget_fst]
  · rw [if_neg h, fc_dset_other _ _ _ _ h, fc_dget]

theorem bumpFreq_entries (x : Int) (s : MedianContainer)
    (hf : ∀ p ∈ s.freq, 0 ≤ p.2) (hpos : 0 ≤ fc s.freq x) :
    ∀ p ∈ (bumpFreq x s).freq, 0 ≤ p.2 := by
  intro p hp
  rcases mem_dset _ _ _ _ hp with h1 | h1
  · rcases mem_dget _ _ _ h1 with h2 | h2
    · exact hf p h2
    · rw [h2]
  · rw [h1]
    show 0 ≤ (dget s.freq x).1 + 1
    rw [dget_fst]
    omega

theorem bumpFreq_nodup (x : Int) (s : MedianContainer)
    (h : (dkeys s.freq).Nodup) : (dkeys (bumpFreq x s).freq).Nodup := by
  refine nodup_dset _ _ _ (nodup_dget _ _ h) ?_
  rw [dfind_dget_self]
  simp

theorem bumpFreq_total (x : Int) (s : MedianContainer) :
    totalOf (bumpFreq x s).freq = totalOf s.freq + 1 := by
  show totalOf (dset (dget s.freq x).2 x ((dget s.freq x).1 + 1)) = _
  rw [total_dset _ _ _ (fc s.freq x) (dfind_dget_self s.freq x), total_dget,
    dget_fst]
  ring

theorem rebalance_some_high (s2 : MedianContainer)
    (h1 : ¬s2.left_size < s2.right_size) (hblock : (prune_left s2).left ≠ []) :
    ∃ u, rebalance s2 = some u := by
  rw [rebalance, if_neg h1]
  by_cases h2 : s2.left_size - s2.right_size > 1
  · rw [if_pos h2]
    cases hmatch : (prune_left s2).left with
    | nil => exact absurd hmatch hblock
    | cons t rest =>
      exact ⟨_, rfl⟩
  · rw [if_neg h2]
    exact ⟨s2, rfl⟩

theorem rebalance_some_low (s2 : MedianContainer)
    (h1 : s2.left_size < s2.right_size) (hblock : (prune_right s2).right ≠ []) :
    ∃ u, rebalance s2 = some u := by
  rw [rebalance, if_pos h1]
  cases hmatch : (prune_right s2).right with
  | nil => exact absurd hmatch hblock
  | cons v rest =>
    exact ⟨_, rfl⟩


theorem add_case_empty (x : Int) (s : MedianContainer) (hf : FullInv s)
    (hls : s.left_size = 0) : ∃ s1, add x s = some s1 ∧ FullInv s1 := by
  obtain ⟨hc, ht, hze, hd0, hd1⟩ := hf
  have hn0 : 0 ≤ s.n := by rw [hc.ntotal]; exact total_nonneg _ hc.fess
  have hrs : s.right_size = 0 := by have := hc.sizes; omega
  have hns : s.n = 0 := by have := hc.sizes; omega
  obtain ⟨hle, hre⟩ := hze hns
  have htz : totalOf s.freq = 0 := by rw [← hc.ntotal]; exact hns
  have hfz : ∀ v, fc s.freq v = 0 := fc_zero_of_total_zero _ hc.fess htz
  have hdz : ∀ v, fc s.delayed v = 0 := by
    intro v
    have h2 := hc.ledger v
    rw [hle, hre] at h2
    simp only [cnt] at h2
    rw [hfz v] at h2
    omega
  have hroute : addRoute x s = { s with left := heapPush s.left (-x), left_size := s.left_size + 1 } := by
    rw [addRoute, if_pos hls]
  have hpl : heapPush s.left (-x) = [-x] := by rw [hle]; rfl
  have efq : (addRoute x s).freq = s.freq := by rw [hroute]
  have e1 : (bumpFreq x (addRoute x s)).left = [-x] := by rw [hroute]; exact hpl
  have e2 : (bumpFreq x (addRoute x s)).right = [] := by rw [hroute]; exact hre
  have e3 : (bumpFreq x (addRoute x s)).delayed = s.delayed := by rw [hroute]; exact rfl
  have e4 : (bumpFreq x (addRoute x s)).left_size = s.left_size + 1 := by rw [hroute]; exact rfl
  have e5 : (bumpFreq x (addRoute x s)).right_size = s.right_size := by rw [hroute]; exact rfl
  have e6 : (bumpFreq x (addRoute x s)).n = s.n + 1 := by rw [hroute]; exact rfl
  have e7 : ∀ v, fc (bumpFreq x (addRoute x s)).freq v =
      if v = x then fc s.freq x + 1 else fc s.freq v := by
    intro v
    have h3 := fc_bumpFreq x (addRoute x s) v
    rw [efq] at h3
    exact h3
  have hcore : CoreInv (bumpFreq x (addRoute x s)) := by
    refine ⟨?_, ?_, ?_, ?_, ?_, ?_, ?_, ?_, ?_⟩
    · rw [e1]
      exact List.pairwise_singleton _ _
    · rw [e2]
      exact List.Pairwise.nil
    · intro u hu v hv
      rw [e2] at hv
      simp at hv
    · intro v
      rw [e3]
      exact hc.dnn v
    · refine bumpFreq_entries x _ ?_ ?_
      · rw [efq]; exact hc.fess
      · rw [efq, hfz x]
    · intro v
      rw [e1, e2, e3, e7 v, hdz v, hfz v]
      by_cases hvx : v = x
      · subst hvx
        rw [if_pos rfl, hfz v]
        simp [cnt]
      · rw [if_neg hvx]
        have hne : ¬(-x = -v) := fun h3 => hvx (neg_injective h3).symm
        simp [cnt, hne]
    · refine bumpFreq_nodup x _ ?_
      rw [efq]; exact hc.nodupF
    · rw [e6, bumpFreq_total, efq, ← hc.ntotal]
    · rw [e4, e5, e6]
      have := hc.sizes
      omega
  have htop : TopR (bumpFreq x (addRoute x s)) := by
    intro r t2 hrt
    rw [e2] at hrt
    exact absurd hrt (by simp)
  have hzmid : ZeroE (bumpFreq x (addRoute x s)) := by
    intro h0
    rw [e6] at h0
    omega
  obtain ⟨s1, hr⟩ : ∃ u, rebalance (bumpFreq x (addRoute x s)) = some u := by
    rw [rebalance, if_neg (by rw [e4, e5]; omega), if_neg (by rw [e4, e5]; omega)]
    exact ⟨_, rfl⟩
  refine ⟨s1, hr, ?_⟩
  exact rebalance_inv _ s1 hcore htop hzmid (by rw [e4]; omega) (by rw [e5]; omega)
    (by rw [e4, e5]; omega) (by rw [e4, e5]; omega) hr

theorem add_case_left (x : Int) (s : MedianContainer) (hf : FullInv s)
    (hls : ¬s.left_size = 0) (hmed : x ≤ medianRef (prune_left s) x) :
    ∃ s1, add x s = some s1 ∧ FullInv s1 := by
  obtain ⟨hc, ht, hze, hd0, hd1⟩ := hf
  have hn0 : 0 ≤ s.n := by rw [hc.ntotal]; exact total_nonneg _ hc.fess
  have hcp := coreInv_prune_left s hc
  have htp := topR_prune_left s ht
  have hroute : addRoute x s = { prune_left s with left := heapPush (prune_left s).left (-x), left_size := (prune_left s).left_size + 1 } := by
    simp only [addRoute, if_neg hls, if_pos hmed]
  have efq : (addRoute x s).freq = s.freq := by
    rw [hroute]
    show (prune_left s).freq = s.freq
    exact prune_left_freq s
  have e1 : (bumpFreq x (addRoute x s)).left = heapPush (prune_left s).left (-x) := by
    rw [hroute]; exact rfl
  have e2 : (bumpFreq x (addRoute x s)).right = (prune_left s).right := by
    rw [hroute]; exact rfl
  have e3 : (bumpFreq x (addRoute x s)).delayed = (prune_left s).delayed := by
    rw [hroute]; exact rfl
  have e4 : (bumpFreq x (addRoute x s)).left_size = (prune_left s).left_size + 1 := by
    rw [hroute]; exact rfl
  have e5 : (bumpFreq x (addRoute x s)).right_size = (prune_left s).right_size := by
    rw [hroute]; exact rfl
  have e6 : (bumpFreq x (addRoute x s)).n = s.n + 1 := by
    rw [hroute]
    show (prune_left s).n + 1 = s.n + 1
    rw [prune_left_n]
  have e7 : ∀ v, fc (bumpFreq x (addRoute x s)).freq v =
      if v = x then fc s.freq x + 1 else fc s.freq v := by
    intro v
    have h3 := fc_bumpFreq x (addRoute x s) v
    rw [efq] at h3
    exact h3
  have hfqp : (prune_left s).freq = s.freq := prune_left_freq s
  have hxw : ∀ w ∈ (prune_left s).right, x ≤ w := by
    intro w hw
    cases hL : (prune_left s).left with
    | cons t tl =>
      simp only [medianRef, hL] at hmed
      have := hcp.order t (hL ▸ List.mem_cons_self t tl) w hw
      omega
    | nil =>
      cases hR : (prune_left s).right with
      | nil => rw [hR] at hw; simp at hw
      | cons r rl =>
        simp only [medianRef, hL, hR] at hmed
        have := sorted_head_le r rl (hR ▸ hcp.sortedR) w (hR ▸ hw)
        omega
  have hcore : CoreInv (bumpFreq x (addRoute x s)) := by
    refine ⟨?_, ?_, ?_, ?_, ?_, ?_, ?_, ?_, ?_⟩
    · rw [e1]
      exact pairwise_heapPush _ _ hcp.sortedL
    · rw [e2]
      exact hcp.sortedR
    · intro u hu w hw
      rw [e1] at hu
      rw [e2] at hw
      show -u ≤ w
      rcases (mem_heapPush _ _ _).mp hu with h1 | h1
      · subst h1
        rw [neg_neg]
        exact hxw w hw
      · exact hcp.order u h1 w hw
    · intro v
      rw [e3]
      exact hcp.dnn v
    · refine bumpFreq_entries x _ ?_ ?_
      · rw [efq]; exact hc.fess
      · rw [efq]; exact fc_nonneg_of_entries _ hc.fess x
    · intro v
      rw [e1, e2, e3, e7 v]
      have hl := hcp.ledger v
      rw [hfqp] at hl
      rw [cnt_heapPush]
      by_cases hvx : v = x
      · subst hvx
        rw [if_pos rfl, if_pos rfl]
        omega
      · have hne : ¬(-x = -v) := fun h3 => hvx (neg_injective h3).symm
        rw [if_neg hne, if_neg hvx]
        omega
    · refine bumpFreq_nodup x _ ?_
      rw [efq]; exact hc.nodupF
    · rw [e6, bumpFreq_total, efq, ← hc.ntotal]
    · rw [e4, e5, e6]
      have h4 := hcp.sizes
      rw [prune_left_n] at h4
      omega
  have htop : TopR (bumpFreq x (addRoute x s)) := by
    intro r t2 hrt
    rw [e2] at hrt
    rw [e3]
    exact htp r t2 hrt
  have hzmid : ZeroE (bumpFreq x (addRoute x s)) := by
    intro h0
    rw [e6] at h0
    omega
  have hds : (prune_left s).left_size - (prune_left s).right_size =
      s.left_size - s.right_size := by
    rw [prune_left_ls, prune_left_rs]
  have hblock : (prune_left (bumpFreq x (addRoute x s))).left ≠ [] := by
    rw [prune_left_left, e1, e3]
    cases hL : (prune_left s).left with
    | cons t tl =>
      refine pruneLL_block _ _ t hcp.dnn ?_
      have hz : fc (prune_left s).delayed (-t) = 0 := by
        rw [prune_left_delayed]
        exact pruneLL_head_zero s.left s.delayed hc.dnn t tl
          (by rw [← prune_left_left]; exact hL)
      have hmem : 0 < cnt (t :: tl) t := mem_cnt_pos _ t (List.mem_cons_self t tl)
      rw [hz, cnt_heapPush]
      by_cases hxt : -x = t
      · rw [if_pos hxt]; omega
      · rw [if_neg hxt]; omega
    | nil =>
      refine pruneLL_block _ _ (-x) hcp.dnn ?_
      have hzx : fc (prune_left s).delayed x = 0 := by
        have hl := hcp.ledger x
        rw [hfqp, hL] at hl
        simp only [cnt] at hl
        have hfn : 0 ≤ fc s.freq x := fc_nonneg_of_entries _ hc.fess x
        have hdn : 0 ≤ fc (prune_left s).delayed x := hcp.dnn x
        cases hR : (prune_left s).right with
        | nil =>
          rw [hR] at hl
          simp only [cnt] at hl
          omega
        | cons r rl =>
          simp only [medianRef, hL, hR] at hmed
          by_cases hxr : x = r
          · exact hxr ▸ htp r rl hR
          · have hlt : x < r := by omega
            have hnm : x ∉ r :: rl :=
              not_mem_of_lt_head r rl (hR ▸ hcp.sortedR) x hlt
            have hcz : cnt (prune_left s).right x = 0 := by
              rw [hR]
              exact cnt_zero_of_not_mem _ _ hnm
            rw [hcz] at hl
            omega
      rw [neg_neg, hzx]
      simp [heapPush, cnt]
  obtain ⟨s1, hr⟩ : ∃ u, rebalance (bumpFreq x (addRoute x s)) = some u := by
    refine rebalance_some_high _ ?_ hblock
    rw [e4, e5, prune_left_ls, prune_left_rs]
    have := hc.sizes
    omega
  refine ⟨s1, hr, ?_⟩
  exact rebalance_inv _ s1 hcore htop hzmid
    (by rw [e4, prune_left_ls]; have := hc.sizes; omega)
    (by rw [e5, prune_left_rs]; have := hc.sizes; omega)
    (by rw [e4, e5, prune_left_ls, prune_left_rs]; omega)
    (by rw [e4, e5, prune_left_ls, prune_left_rs]; omega) hr

theorem add_case_right (x : Int) (s : MedianContainer) (hf : FullInv s)
    (hls : ¬s.left_size = 0) (hmed : ¬x ≤ medianRef (prune_left s) x) :
    ∃ s1, add x s = some s1 ∧ FullInv s1 := by
  obtain ⟨hc, ht, hze, hd0, hd1⟩ := hf
  have hn0 : 0 ≤ s.n := by rw [hc.ntotal]; exact total_nonneg _ hc.fess
  have hcp := coreInv_prune_left s hc
  have htp := topR_prune_left s ht
  have hroute : addRoute x s = { prune_left s with right := heapPush (prune_left s).right x, right_size := (prune_left s).right_size + 1 } := by
    simp only [addRoute, if_neg hls, if_neg hmed]
  have efq : (addRoute x s).freq = s.freq := by
    rw [hroute]
    show (prune_left s).freq = s.freq
    exact prune_left_freq s
  have e1 : (bumpFreq x (addRoute x s)).left = (prune_left s).left := by
    rw [hroute]; exact rfl
  have e2 : (bumpFreq x (addRoute x s)).right = heapPush (prune_left s).right x := by
    rw [hroute]; exact rfl
  have e3 : (bumpFreq x (addRoute x s)).delayed = (prune_left s).delayed := by
    rw [hroute]; exact rfl
  have e4 : (bumpFreq x (addRoute x s)).left_size = (prune_left s).left_size := by
    rw [hroute]; exact rfl
  have e5 : (bumpFreq x (addRoute x s)).right_size = (prune_left s).right_size + 1 := by
    rw [hroute]; exact rfl
  have e6 : (bumpFreq x (addRoute x s)).n = s.n + 1 := by
    rw [hroute]
    show (prune_left s).n + 1 = s.n + 1
    rw [prune_left_n]
  have e7 : ∀ v, fc (bumpFreq x (addRoute x s)).freq v =
      if v = x then fc s.freq x + 1 else fc s.freq v := by
    intro v
    have h3 := fc_bumpFreq x (addRoute x s) v
    rw [efq] at h3
    exact h3
  have hfqp : (prune_left s).freq = s.freq := prune_left_freq s
  have hfn : 0 ≤ fc s.freq x := fc_nonneg_of_entries _ hc.fess x
  have hxno : cnt (prune_left s).left (-x) = 0 := by
    cases hL : (prune_left s).left with
    | nil => simp [cnt]
    | cons t tl =>
      simp only [medianRef, hL] at hmed
      refine cnt_zero_of_not_mem _ _ ?_
      intro hmem
      have := sorted_head_le t tl (hL ▸ hcp.sortedL) (-x) hmem
      omega
  have hdzx : ((prune_left s).right = [] ∨
      ∃ y yt, (prune_left s).right = y :: yt ∧ x ≤ y) →
      fc (prune_left s).delayed x = 0 := by
    intro hcase
    have hl := hcp.ledger x
    rw [hfqp, hxno] at hl
    have hdn : 0 ≤ fc (prune_left s).delayed x := hcp.dnn x
    rcases hcase with hre | ⟨y, yt, hyy, hxy⟩
    · rw [hre] at hl
      simp only [cnt] at hl
      omega
    · by_cases hxyeq : x = y
      · exact hxyeq ▸ htp y yt hyy
      · have hlt : x < y := by omega
        have hnm : x ∉ y :: yt := not_mem_of_lt_head y yt (hyy ▸ hcp.sortedR) x hlt
        have hcz : cnt (prune_left s).right x = 0 := by
          rw [hyy]
          exact cnt_zero_of_not_mem _ _ hnm
        rw [hcz] at hl
        omega
  have hcore : CoreInv (bumpFreq x (addRoute x s)) := by
    refine ⟨?_, ?_, ?_, ?_, ?_, ?_, ?_, ?_, ?_⟩
    · rw [e1]
      exact hcp.sortedL
    · rw [e2]
      exact pairwise_heapPush _ _ hcp.sortedR
    · intro u hu w hw
      rw [e1] at hu
      rw [e2] at hw
      show -u ≤ w
      rcases (mem_heapPush _ _ _).mp hw with h1 | h1
      · subst h1
        cases hL : (prune_left s).left with
        | nil => rw [hL] at hu; simp at hu
        | cons t tl =>
          simp only [medianRef, hL] at hmed
          rw [hL] at hu
          have := sorted_head_le t tl (hL ▸ hcp.sortedL) u hu
          omega
      · exact hcp.order u hu w h1
    · intro v
      rw [e3]
      exact hcp.dnn v
    · refine bumpFreq_entries x _ ?_ ?_
      · rw [efq]; exact hc.fess
      · rw [efq]; exact hfn
    · intro v
      rw [e1, e2, e3, e7 v]
      have hl := hcp.ledger v
      rw [hfqp] at hl
      rw [cnt_heapPush]
      by_cases hvx : v = x
      · subst hvx
        rw [if_pos rfl, if_pos rfl]
        omega
      · rw [if_neg (fun h3 : x = v => hvx h3.symm), if_neg hvx]
        omega
    · refine bumpFreq_nodup x _ ?_
      rw [efq]; exact hc.nodupF
    · rw [e6, bumpFreq_total, efq, ← hc.ntotal]
    · rw [e4, e5, e6]
      have h4 := hcp.sizes
      rw [prune_left_n] at h4
      omega
  have htop : TopR (bumpFreq x (addRoute x s)) := by
    intro r t2 hrt
    rw [e2] at hrt
    rw [e3]
    rcases heapPush_head_cases _ _ _ _ hrt with ⟨hz, hcase⟩ | ⟨y, yt, hyy, hz, hnx⟩
    · rw [hz]
      exact hdzx hcase
    · rw [hz]
      exact htp y yt hyy
  have hzmid : ZeroE (bumpFreq x (addRoute x s)) := by
    intro h0
    rw [e6] at h0
    omega
  obtain ⟨s1, hr⟩ : ∃ u, rebalance (bumpFreq x (addRoute x s)) = some u := by
    by_cases hdd : (bumpFreq x (addRoute x s)).left_size <
        (bumpFreq x (addRoute x s)).right_size
    · refine rebalance_some_low _ hdd ?_
      rw [prune_right_right, e2, e3]
      refine pruneRL_block _ _ x hcp.dnn ?_
      rw [cnt_heapPush, if_pos rfl]
      have hl := hcp.ledger x
      rw [hfqp, hxno] at hl
      omega
    · rw [rebalance, if_neg hdd,
        if_neg (by rw [e4, e5, prune_left_ls, prune_left_rs]; omega)]
      exact ⟨_, rfl⟩
  refine ⟨s1, hr, ?_⟩
  exact rebalance_inv _ s1 hcore htop hzmid
    (by rw [e4, prune_left_ls]; have := hc.sizes; omega)
    (by rw [e5, prune_left_rs]; have := hc.sizes; omega)
    (by rw [e4, e5, prune_left_ls, prune_left_rs]; omega)
    (by rw [e4, e5, prune_left_ls, prune_left_rs]; omega) hr

theorem add_total_inv (x : Int) (s : MedianContainer) (hf : FullInv s) :
    ∃ s1, add x s = some s1 ∧ FullInv s1 := by
  by_cases hls : s.left_size = 0
  · exact add_case_empty x s hf hls
  · by_cases hmed : x ≤ medianRef (prune_left s) x
    · exact add_case_left x s hf hls hmed
    · exact add_case_right x s hf hls hmed

theorem removeDel_fields (x : Int) (s : MedianContainer) :
    (removeDel x s).left = s.left ∧ (removeDel x s).right = s.right ∧
    (removeDel x s).left_size = s.left_size ∧
    (removeDel x s).right_size = s.right_size ∧ (removeDel x s).n = s.n - 1 :=
  ⟨rfl, rfl, rfl, rfl, rfl⟩

theorem fc_removeDel_freq (x : Int) (s : MedianContainer) (v : Int) :
    fc (removeDel x s).freq v =
      if v = x then fc s.freq x - 1 else fc s.freq v := by
  show fc (dset (dget s.freq x).2 x ((dget s.freq x).1 - 1)) v = _
  by_cases h : v = x
  · subst h
    rw [if_pos rfl, fc_dset_self, dget_fst]
  · rw [if_neg h, fc_dset_other _ _ _ _ h, fc_dget]

theorem fc_removeDel_delayed (x : Int) (s : MedianContainer) (v : Int) :
    fc (removeDel x s).delayed v =
      if v = x then fc s.delayed x + 1 else fc s.delayed v := by
  show fc (dset (dget s.delayed x).2 x ((dget s.delayed x).1 + 1)) v = _
  by_cases h : v = x
  · subst h
    rw [if_pos rfl, fc_dset_self, dget_fst]
  · rw [if_neg h, fc_dset_other _ _ _ _ h, fc_dget]

theorem removeDel_entries (x : Int) (s : MedianContainer)
    (hf : ∀ p ∈ s.freq, 0 ≤ p.2) (hpos : 0 < fc s.freq x) :
    ∀ p ∈ (removeDel x s).freq, 0 ≤ p.2 := by
  intro p hp
  rcases mem_dset _ _ _ _ hp with h1 | h1
  · rcases mem_dget _ _ _ h1 with h2 | h2
    · exact hf p h2
    · rw [h2]
  · rw [h1]
    show 0 ≤ (dget s.freq x).1 - 1
    rw [dget_fst]
    omega

theorem removeDel_nodup (x : Int) (s : MedianContainer)
    (h : (dkeys s.freq).Nodup) : (dkeys (removeDel x s).freq).Nodup := by
  refine nodup_dset _ _ _ (nodup_dget _ _ h) ?_
  rw [dfind_dget_self]
  simp

theorem removeDel_total (x : Int) (s : MedianContainer) :
    totalOf (removeDel x s).freq = totalOf s.freq - 1 := by
  show totalOf (dset (dget s.freq x).2 x ((dget s.freq x).1 - 1)) = _
  rw [total_dset _ _ _ (fc s.freq x) (dfind_dget_self s.freq x), total_dget,
    dget_fst]
  ring

theorem dget_state_full (x : Int) (s : MedianContainer) (hf : FullInv s) :
    FullInv { s with freq := (dget s.freq x).2 } := by
  obtain ⟨hc, ht, hze, hd0, hd1⟩ := hf
  refine ⟨⟨hc.sortedL, hc.sortedR, hc.order, hc.dnn, ?_, ?_, ?_, ?_, hc.sizes⟩,
    ht, hze, hd0, hd1⟩
  · intro p hp
    rcases mem_dget _ _ _ hp with h1 | h1
    · exact hc.fess p h1
    · rw [h1]
  · intro v
    show cnt s.left (-v) + cnt s.right v = fc (dget s.freq x).2 v + fc s.delayed v
    rw [fc_dget]
    exact hc.ledger v
  · exact nodup_dget _ _ hc.nodupF
  · show s.n = totalOf (dget s.freq x).2
    rw [total_dget]
    exact hc.ntotal

theorem remove_pipeline (x : Int) (s0 : MedianContainer) (hf : FullInv s0)
    (hfx : 0 < fc s0.freq x) (s6 : MedianContainer)
    (hreb : rebalance (prune_right (prune_left (removeAttr x (removeDel x s0)))) =
      some s6) :
    FullInv (prune_left s6) ∧
    (∀ v, fc (prune_left s6).freq v =
      if v = x then fc s0.freq x - 1 else fc s0.freq v) := by
  obtain ⟨hc, ht, hze, hd0, hd1⟩ := hf
  have hn0 : 0 ≤ s0.n := by rw [hc.ntotal]; exact total_nonneg _ hc.fess
  have hn1 : 1 ≤ s0.n := by
    have h2 := fc_le_total s0.freq hc.fess x
    rw [← hc.ntotal] at h2
    omega
  have hls0 : 0 ≤ s0.left_size := by have := hc.sizes; omega
  have hrs0 : 0 ≤ s0.right_size := by have := hc.sizes; omega
  have hls1 : 1 ≤ s0.left_size := by have := hc.sizes; omega
  have eAl : (removeDel x s0).left = s0.left := rfl
  have eAr : (removeDel x s0).right = s0.right := rfl
  have eAls : (removeDel x s0).left_size = s0.left_size := rfl
  have eArs : (removeDel x s0).right_size = s0.right_size := rfl
  have eAn : (removeDel x s0).n = s0.n - 1 := rfl
  have eAf := fc_removeDel_freq x s0
  have eAd := fc_removeDel_delayed x s0
  have dnnA : ∀ v, 0 ≤ fc (removeDel x s0).delayed v := by
    intro v
    rw [eAd v]
    have := hc.dnn v
    have := hc.dnn x
    by_cases hvx : v = x
    · rw [if_pos hvx]; omega
    · rw [if_neg hvx]; omega
  have ledgerA : ∀ v, cnt (removeDel x s0).left (-v) + cnt (removeDel x s0).right v =
      fc (removeDel x s0).freq v + fc (removeDel x s0).delayed v := by
    intro v
    rw [eAl, eAr, eAf v, eAd v]
    have := hc.ledger v
    by_cases hvx : v = x
    · subst hvx
      rw [if_pos rfl, if_pos rfl]
      omega
    · rw [if_neg hvx, if_neg hvx]
      omega
  have entriesA : ∀ p ∈ (removeDel x s0).freq, 0 ≤ p.2 :=
    removeDel_entries x s0 hc.fess hfx
  have nodupA : (dkeys (removeDel x s0).freq).Nodup := removeDel_nodup x s0 hc.nodupF
  have totalA : totalOf (removeDel x s0).freq = totalOf s0.freq - 1 :=
    removeDel_total x s0
  -- the pruned intermediate state
  have l3 : (prune_left (removeDel x s0)).left =
      (pruneLL (removeDel x s0).left (removeDel x s0).delayed).1 := rfl
  have d3 : (prune_left (removeDel x s0)).delayed =
      (pruneLL (removeDel x s0).left (removeDel x s0).delayed).2 := rfl
  have r3 : (prune_left (removeDel x s0)).right = s0.right := rfl
  have f3 : (prune_left (removeDel x s0)).freq = (removeDel x s0).freq := rfl
  have sorted3L : List.Pairwise (· ≤ ·) (prune_left (removeDel x s0)).left := by
    rw [l3]
    exact hc.sortedL.sublist (pruneLL_suffix _ _).sublist
  have dnn3 : ∀ v, 0 ≤ fc (prune_left (removeDel x s0)).delayed v := by
    intro v
    rw [d3]
    exact pruneLL_fc_nonneg _ _ dnnA v
  have ledger3 : ∀ v, cnt (prune_left (removeDel x s0)).left (-v) +
      cnt (prune_left (removeDel x s0)).right v =
      fc (prune_left (removeDel x s0)).freq v +
      fc (prune_left (removeDel x s0)).delayed v := by
    intro v
    have h2 := pruneLL_ledger (removeDel x s0).left (removeDel x s0).delayed (-v)
    rw [neg_neg] at h2
    have h3 := ledgerA v
    rw [l3, r3, f3, d3, ← eAr]
    omega
  have order3 : ∀ u ∈ (prune_left (removeDel x s0)).left,
      ∀ v ∈ (prune_left (removeDel x s0)).right, -u ≤ v := by
    intro u hu v hv
    rw [l3] at hu
    rw [r3] at hv
    exact hc.order u ((pruneLL_suffix _ _).subset hu) v hv
  -- no clamp fires, and in the right-attribution case the upper size is positive
  have key : ∀ hattrcase : ¬x ≤ medianRef (prune_left (removeDel x s0)) x,
      1 ≤ s0.right_size := by
    intro hattrcase
    by_contra hrs1
    have hrsz : s0.right_size = 0 := by omega
    have hnsz : s0.n = 1 := by have := hc.sizes; omega
    have htot1 : totalOf s0.freq = 1 := by rw [← hc.ntotal]; exact hnsz
    have hfcx1 : fc s0.freq x = 1 := by
      have := fc_le_total s0.freq hc.fess x
      omega
    have hfv0 : ∀ v, v ≠ x → fc s0.freq v = 0 := by
      intro v hv
      have h2 := fc_two_le_total s0.freq hc.fess x v (fun h3 => hv h3.symm)
      have h3 := fc_nonneg_of_entries s0.freq hc.fess v
      omega
    have hfA0 : ∀ v, fc (removeDel x s0).freq v = 0 := by
      intro v
      rw [eAf v]
      by_cases hvx : v = x
      · rw [if_pos hvx, hfcx1]; ring
      · rw [if_neg hvx]; exact hfv0 v hvx
    have hdrain : (prune_left (removeDel x s0)).left = [] := by
      rw [l3]
      refine pruneLL_drain _ _ ?_
      intro e he
      have h2 := ledgerA (-e)
      rw [neg_neg] at h2
      rw [hfA0 (-e)] at h2
      have h3 := cnt_nonneg (removeDel x s0).right (-e)
      omega
    cases hR : s0.right with
    | nil =>
      have : medianRef (prune_left (removeDel x s0)) x = x := by
        simp only [medianRef, hdrain]
        rw [r3, hR]
      rw [this] at hattrcase
      omega
    | cons r rl =>
      have hmedr : medianRef (prune_left (removeDel x s0)) x = r := by
        simp only [medianRef, hdrain]
        rw [r3, hR]
      rw [hmedr] at hattrcase
      by_cases hrx : r = x
      · omega
      · have hfr : fc s0.freq r = 0 := hfv0 r hrx
        have hdr : fc s0.delayed r = 0 := ht r rl hR
        have hl2 := hc.ledger r
        rw [hfr, hdr, hR] at hl2
        have h3 := cnt_nonneg s0.left (-r)
        have h4 : 0 < cnt (r :: rl) r := mem_cnt_pos _ r (List.mem_cons_self r rl)
        omega
  by_cases hattr : x ≤ medianRef (prune_left (removeDel x s0)) x
  · -- left attribution: left_size decreases, no clamp since left_size ≥ 1
    have hcl : ¬((prune_left (removeDel x s0)).left_size - 1 < 0) := by
      rw [prune_left_ls, eAls]
      omega
    have hs4 : removeAttr x (removeDel x s0) = { prune_left (removeDel x s0) with left_size := (prune_left (removeDel x s0)).left_size - 1 } := by
      simp only [removeAttr]
      rw [if_pos hattr, if_neg hcl]
    have hc4 : CoreInv (removeAttr x (removeDel x s0)) := by
      rw [hs4]
      refine ⟨sorted3L, hc.sortedR, order3, dnn3, entriesA, ledger3, nodupA, ?_, ?_⟩
      · show (prune_left (removeDel x s0)).n = totalOf (removeDel x s0).freq
        rw [prune_left_n, eAn, totalA, ← hc.ntotal]
      · show (prune_left (removeDel x s0)).left_size - 1 +
          (prune_left (removeDel x s0)).right_size = (prune_left (removeDel x s0)).n
        rw [prune_left_ls, prune_left_rs, prune_left_n, eAls, eArs, eAn]
        have := hc.sizes
        omega
    have hdd4 : (removeAttr x (removeDel x s0)).left_size =
        s0.left_size - 1 ∧ (removeAttr x (removeDel x s0)).right_size =
        s0.right_size := by
      rw [hs4]
      constructor
      · show (prune_left (removeDel x s0)).left_size - 1 = s0.left_size - 1
        rw [prune_left_ls, eAls]
      · show (prune_left (removeDel x s0)).right_size = s0.right_size
        rw [prune_left_rs, eArs]
    have hfq4 : (removeAttr x (removeDel x s0)).freq = (removeDel x s0).freq := by
      rw [hs4]
      exact f3
    refine ?_
    have hc5 := coreInv_prune_right _ (coreInv_prune_left _ hc4)
    have ht5 := topR_prune_right (prune_left (removeAttr x (removeDel x s0)))
      (coreInv_prune_left _ hc4).dnn
    have hn4 : (removeAttr x (removeDel x s0)).n = s0.n - 1 := by
      rw [hs4]
      show (prune_left (removeDel x s0)).n = s0.n - 1
      rw [prune_left_n, eAn]
    have hze5 : ZeroE (prune_right (prune_left (removeAttr x (removeDel x s0)))) := by
      intro h0
      rw [prune_right_n, prune_left_n, hn4] at h0
      have hnsz : s0.n = 1 := by omega
      have htot1 : totalOf s0.freq = 1 := by rw [← hc.ntotal]; exact hnsz
      have hfcx1 : fc s0.freq x = 1 := by
        have := fc_le_total s0.freq hc.fess x
        omega
      have hfv0 : ∀ v, v ≠ x → fc s0.freq v = 0 := by
        intro v hv
        have h2 := fc_two_le_total s0.freq hc.fess x v (fun h3 => hv h3.symm)
        have h3 := fc_nonneg_of_entries s0.freq hc.fess v
        omega
      have hfA0 : ∀ v, fc (removeAttr x (removeDel x s0)).freq v = 0 := by
        intro v
        rw [hfq4, eAf v]
        by_cases hvx : v = x
        · rw [if_pos hvx, hfcx1]; ring
        · rw [if_neg hvx]; exact hfv0 v hvx
      have hdl : (prune_left (removeAttr x (removeDel x s0))).left = [] := by
        rw [prune_left_left]
        refine pruneLL_drain _ _ ?_
        intro e he
        have h2 := hc4.ledger (-e)
        rw [neg_neg, hfA0 (-e)] at h2
        have h3 := cnt_nonneg (removeAttr x (removeDel x s0)).right (-e)
        have h4 := (coreInv_prune_left _ hc4).dnn
        omega
      constructor
      · rw [prune_right_left]
        exact hdl
      · rw [prune_right_right]
        refine pruneRL_drain _ _ ?_
        intro e he
        have h2 := (coreInv_prune_left _ hc4).ledger e
        have hfz2 : fc (prune_left (removeAttr x (removeDel x s0))).freq e = 0 := by
          rw [prune_left_freq]
          exact hfA0 e
        rw [hfz2] at h2
        have h3 := cnt_nonneg (prune_left (removeAttr x (removeDel x s0))).left (-e)
        omega
    have rinv := rebalance_inv _ s6 hc5 ht5 hze5
      (by rw [prune_right_ls, prune_left_ls, hdd4.1]; omega)
      (by rw [prune_right_rs, prune_left_rs, hdd4.2]; omega)
      (by rw [prune_right_ls, prune_left_ls, prune_right_rs, prune_left_rs,
          hdd4.1, hdd4.2]; omega)
      (by rw [prune_right_ls, prune_left_ls, prune_right_rs, prune_left_rs,
          hdd4.1, hdd4.2]; omega) hreb
    have hfq6 : s6.freq = (removeDel x s0).freq := by
      have h2 := (rebalance_freq_n _ _ hreb).1
      rw [h2, prune_right_freq, prune_left_freq, hfq4]
    constructor
    · refine ⟨coreInv_prune_left _ rinv.1, topR_prune_left _ rinv.2.1, ?_, ?_, ?_⟩
      · intro h0
        rw [prune_left_n] at h0
        rcases rinv.2.2.1 h0 with ⟨h6l, h6r⟩
        constructor
        · rw [prune_left_left, h6l]
          rfl
        · rw [prune_left_right]
          exact h6r
      · rw [prune_left_ls, prune_left_rs]
        exact rinv.2.2.2.1
      · rw [prune_left_ls, prune_left_rs]
        exact rinv.2.2.2.2
    · intro v
      rw [prune_left_freq, hfq6, eAf v]
  · -- right attribution: right_size decreases; it is positive by the key lemma
    have hrs1 : 1 ≤ s0.right_size := key hattr
    have hcl : ¬((prune_left (removeDel x s0)).right_size - 1 < 0) := by
      rw [prune_left_rs, eArs]
      omega
    have hs4 : removeAttr x (removeDel x s0) = { prune_left (removeDel x s0) with right_size := (prune_left (removeDel x s0)).right_size - 1 } := by
      simp only [removeAttr]
      rw [if_neg hattr, if_neg hcl]
    have hc4 : CoreInv (removeAttr x (removeDel x s0)) := by
      rw [hs4]
      refine ⟨sorted3L, hc.sortedR, order3, dnn3, entriesA, ledger3, nodupA, ?_, ?_⟩
      · show (prune_left (removeDel x s0)).n = totalOf (removeDel x s0).freq
        rw [prune_left_n, eAn, totalA, ← hc.ntotal]
      · show (prune_left (removeDel x s0)).left_size +
          ((prune_left (removeDel x s0)).right_size - 1) =
          (prune_left (removeDel x s0)).n
        rw [prune_left_ls, prune_left_rs, prune_left_n, eAls, eArs, eAn]
        have := hc.sizes
        omega
    have hdd4 : (removeAttr x (removeDel x s0)).left_size = s0.left_size ∧
        (removeAttr x (removeDel x s0)).right_size = s0.right_size - 1 := by
      rw [hs4]
      constructor
      · show (prune_left (removeDel x s0)).left_size = s0.left_size
        rw [prune_left_ls, eAls]
      · show (prune_left (removeDel x s0)).right_size - 1 = s0.right_size - 1
        rw [prune_left_rs, eArs]
    have hfq4 : (removeAttr x (removeDel x s0)).freq = (removeDel x s0).freq := by
      rw [hs4]
      exact f3
    have hc5 := coreInv_prune_right _ (coreInv_prune_left _ hc4)
    have ht5 := topR_prune_right (prune_left (removeAttr x (removeDel x s0)))
      (coreInv_prune_left _ hc4).dnn
    have hn4 : (removeAttr x (removeDel x s0)).n = s0.n - 1 := by
      rw [hs4]
      show (prune_left (removeDel x s0)).n = s0.n - 1
      rw [prune_left_n, eAn]
    have hze5 : ZeroE (prune_right (prune_left (removeAttr x (removeDel x s0)))) := by
      intro h0
      rw [prune_right_n, prune_left_n, hn4] at h0
      have hnsz : s0.n = 1 := by omega
      have htot1 : totalOf s0.freq = 1 := by rw [← hc.ntotal]; exact hnsz
      have hfcx1 : fc s0.freq x = 1 := by
        have := fc_le_total s0.freq hc.fess x
        omega
      have hfv0 : ∀ v, v ≠ x → fc s0.freq v = 0 := by
        intro v hv
        have h2 := fc_two_le_total s0.freq hc.fess x v (fun h3 => hv h3.symm)
        have h3 := fc_nonneg_of_entries s0.freq hc.fess v
        omega
      have hfA0 : ∀ v, fc (removeAttr x (removeDel x s0)).freq v = 0 := by
        intro v
        rw [hfq4, eAf v]
        by_cases hvx : v = x
        · rw [if_pos hvx, hfcx1]; ring
        · rw [if_neg hvx]; exact hfv0 v hvx
      have hdl : (prune_left (removeAttr x (removeDel x s0))).left = [] := by
        rw [prune_left_left]
        refine pruneLL_drain _ _ ?_
        intro e he
        have h2 := hc4.ledger (-e)
        rw [neg_neg, hfA0 (-e)] at h2
        have h3 := cnt_nonneg (removeAttr x (removeDel x s0)).right (-e)
        omega
      constructor
      · rw [prune_right_left]
        exact hdl
      · rw [prune_right_right]
        refine pruneRL_drain _ _ ?_
        intro e he
        have h2 := (coreInv_prune_left _ hc4).ledger e
        have hfz2 : fc (prune_left (removeAttr x (removeDel x s0))).freq e = 0 := by
          rw [prune_left_freq]
          exact hfA0 e
        rw [hfz2] at h2
        have h3 := cnt_nonneg (prune_left (removeAttr x (removeDel x s0))).left (-e)
        omega
    have rinv := rebalance_inv _ s6 hc5 ht5 hze5
      (by rw [prune_right_ls, prune_left_ls, hdd4.1]; omega)
      (by rw [prune_right_rs, prune_left_rs, hdd4.2]; omega)
      (by rw [prune_right_ls, prune_left_ls, prune_right_rs, prune_left_rs,
          hdd4.1, hdd4.2]; omega)
      (by rw [prune_right_ls, prune_left_ls, prune_right_rs, prune_left_rs,
          hdd4.1, hdd4.2]; omega) hreb
    have hfq6 : s6.freq = (removeDel x s0).freq := by
      have h2 := (rebalance_freq_n _ _ hreb).1
      rw [h2, prune_right_freq, prune_left_freq, hfq4]
    constructor
    · refine ⟨coreInv_prune_left _ rinv.1, topR_prune_left _ rinv.2.1, ?_, ?_, ?_⟩
      · intro h0
        rw [prune_left_n] at h0
        rcases rinv.2.2.1 h0 with ⟨h6l, h6r⟩
        constructor
        · rw [prune_left_left, h6l]
          rfl
        · rw [prune_left_right]
          exact h6r
      · rw [prune_left_ls, prune_left_rs]
        exact rinv.2.2.2.1
      · rw [prune_left_ls, prune_left_rs]
        exact rinv.2.2.2.2
    · intro v
      rw [prune_left_freq, hfq6, eAf v]

theorem remove_spec (x : Int) (s : MedianContainer) (hf : FullInv s)
    (b : Bool) (s1 : MedianContainer)
    (hr : remove x s = some (b, s1)) :
    FullInv s1 ∧ (b = true ↔ 0 < fc s.freq x) ∧
    (∀ v, fc s1.freq v = fc s.freq v - (if b = true ∧ v = x then 1 else 0)) := by
  have hfnn : 0 ≤ fc s.freq x := fc_nonneg_of_entries s.freq hf.1.fess x
  simp only [remove] at hr
  by_cases h0 : (dget s.freq x).1 = 0
  · rw [if_pos h0] at hr
    rw [dget_fst] at h0
    simp only [Option.some.injEq, Prod.mk.injEq] at hr
    obtain ⟨hb, hs1⟩ := hr
    refine ⟨?_, ?_, ?_⟩
    · rw [← hs1]
      exact dget_state_full x s hf
    · rw [← hb]
      constructor
      · intro h2; exact absurd h2 (by decide)
      · intro h2; omega
    · intro v
      rw [← hs1, ← hb]
      show fc (dget s.freq x).2 v = fc s.freq v - (if False ∧ v = x then 1 else 0)
      rw [fc_dget]
      simp
  · rw [if_neg h0] at hr
    rw [dget_fst] at h0
    have hpos : 0 < fc s.freq x := by omega
    have hf0 : FullInv { s with freq := (dget s.freq x).2 } := dget_state_full x s hf
    have hfx0 : 0 < fc ({ s with freq := (dget s.freq x).2 } : MedianContainer).freq x := by
      show 0 < fc (dget s.freq x).2 x
      rw [fc_dget]
      exact hpos
    cases hreb : rebalance (prune_right (prune_left (removeAttr x (removeDel x
        ({ s with freq := (dget s.freq x).2 } : MedianContainer))))) with
    | none =>
      rw [hreb] at hr
      exact absurd hr (by simp)
    | some s6 =>
      rw [hreb] at hr
      simp only [Option.some.injEq, Prod.mk.injEq] at hr
      obtain ⟨hb, hs1⟩ := hr
      have hpipe := remove_pipeline x { s with freq := (dget s.freq x).2 } hf0 hfx0 s6 hreb
      refine ⟨?_, ?_, ?_⟩
      · rw [← hs1]
        exact hpipe.1
      · rw [← hb]
        exact ⟨fun _ => hpos, fun _ => rfl⟩
      · intro v
        rw [← hs1, ← hb]
        have h2 := hpipe.2 v
        show fc (prune_left s6).freq v =
          fc s.freq v - (if true = true ∧ v = x then 1 else 0)
        rw [h2]
        show (if v = x then fc (dget s.freq x).2 x - 1 else fc (dget s.freq x).2 v) =
          fc s.freq v - (if true = true ∧ v = x then 1 else 0)
        by_cases hvx : v = x
        · rw [if_pos hvx, if_pos ⟨rfl, hvx⟩, fc_dget, hvx]
        · rw [if_neg hvx, if_neg (fun h3 => hvx h3.2), fc_dget]
          omega

theorem fullInv_empty : FullInv MedianContainer.empty := by
  refine ⟨⟨List.Pairwise.nil, List.Pairwise.nil, ?_, ?_, ?_, ?_, List.nodup_nil,
    rfl, rfl⟩, ?_, ?_, ?_, ?_⟩
  · intro u hu v hv
    cases hu
  · intro v
    exact le_refl 0
  · intro p hp
    cases hp
  · intro v
    rfl
  · intro r rest h
    exact List.noConfusion h
  · intro h
    exact ⟨rfl, rfl⟩
  · decide
  · decide

theorem median_ok_fullInv (s s1 : MedianContainer) (v : Int) (hf : FullInv s)
    (hm : median s = some (Except.ok (v, s1))) : FullInv s1 := by
  obtain ⟨hc, ht, hze, hd0, hd1⟩ := hf
  simp only [median] at hm
  by_cases h0 : s.n = 0
  · rw [if_pos h0] at hm
    exact absurd hm (by simp)
  · rw [if_neg h0] at hm
    cases hL : (prune_left s).left with
    | nil => rw [hL] at hm; exact absurd hm (by simp)
    | cons t rest =>
      rw [hL] at hm
      simp only [Option.some.injEq, Except.ok.injEq, Prod.mk.injEq] at hm
      rw [← hm.2]
      refine ⟨coreInv_prune_left s hc, topR_prune_left s ht, ?_, ?_, ?_⟩
      · intro h2
        rw [prune_left_n] at h2
        exact absurd h2 h0
      · rw [prune_left_ls, prune_left_rs]; exact hd0
      · rw [prune_left_ls, prune_left_rs]; exact hd1

theorem reach_fullInv (s : MedianContainer) (h : Reach s) : FullInv s := by
  induction h with
  | init => exact fullInv_empty
  | add h1 h2 ih =>
    obtain ⟨s1, hadd, hfull⟩ := add_total_inv _ _ ih
    rw [h2] at hadd
    cases hadd
    exact hfull
  | rem h1 h2 ih => exact (remove_spec _ _ ih _ _ h2).1
  | med h1 h2 ih => exact median_ok_fullInv _ _ _ ih h2

theorem step_reach (s s1 : MedianContainer) (op : Op) (h : Reach s)
    (hs : step s op = some s1) : Reach s1 := by
  cases op with
  | add x => exact Reach.add h hs
  | remove x =>
    simp only [step] at hs
    cases hr : MedianContainer.remove x s with
    | none => rw [hr] at hs; exact absurd hs (by simp)
    | some p =>
      rw [hr] at hs
      simp only [Option.map_some', Option.some.injEq] at hs
      rw [← hs]
      exact Reach.rem h (by rw [hr])
  | median =>
    simp only [step] at hs
    cases hm : MedianContainer.median s with
    | none => rw [hm] at hs; exact absurd hs (by simp)
    | some e =>
      rw [hm] at hs
      cases e with
      | error u =>
        cases u
        simp only [Option.some.injEq] at hs
        rw [← hs]
        exact h
      | ok p =>
        simp only [Option.some.injEq] at hs
        rw [← hs]
        exact Reach.med h (by rw [hm])

theorem foldl_step_none (ops : List Op) :
    List.foldl (fun acc op => acc.bind (fun s => step s op)) none ops =
      (none : Option MedianContainer) := by
  induction ops with
  | nil => rfl
  | cons op rest ih => rw [List.foldl_cons, Option.none_bind]; exact ih

theorem runOps_reach_aux (ops : List Op) :
    ∀ s : MedianContainer, Reach s →
    ∀ s1, List.foldl (fun acc op => acc.bind (fun s2 => step s2 op)) (some s) ops =
      some s1 → Reach s1 := by
  induction ops with
  | nil =>
    intro s hR s1 h1
    simp only [List.foldl_nil, Option.some.injEq] at h1
    rw [← h1]
    exact hR
  | cons op rest ih =>
    intro s hR s1 h1
    rw [List.foldl_cons, Option.some_bind] at h1
    cases hstep : step s op with
    | none =>
      rw [hstep, foldl_step_none] at h1
      exact absurd h1 (by simp)
    | some s2 =>
      rw [hstep] at h1
      exact ih s2 (step_reach s s2 op hR hstep) s1 h1

theorem runOps_reach (ops : List Op) (s : MedianContainer)
    (h : runOps ops = some s) : Reach s :=
  runOps_reach_aux ops MedianContainer.empty Reach.init s h

/-- C3 (confirmed): in every reachable state the logical size counters
satisfy `left_size + right_size = n` and `left_size - right_size ∈ {0, 1}`. -/
theorem c3_size_invariants (s : MedianContainer) (h : Reach s) :
    s.left_size + s.right_size = s.n ∧
    0 ≤ s.left_size - s.right_size ∧ s.left_size - s.right_size ≤ 1 := by
  have hf := reach_fullInv s h
  exact ⟨hf.1.sizes, hf.2.2.2.1, hf.2.2.2.2⟩

theorem c3_size_invariants_witness :
    twoState.left_size + twoState.right_size = twoState.n ∧
    0 ≤ twoState.left_size - twoState.right_size ∧
    twoState.left_size - twoState.right_size ≤ 1 :=
  c3_size_invariants twoState
    (runOps_reach [Op.add 1, Op.add 2] twoState (by decide))

/-- C4 (confirmed): in every reachable state, after pruning both partitions,
every value stored in the lower heap (as its negation `u`) is at most every
value stored in the upper heap: `max(Lower) ≤ min(Upper)`. -/
theorem c4_partition_order (s : MedianContainer) (h : Reach s) :
    ∀ u ∈ (prune_right (prune_left s)).left,
      ∀ v ∈ (prune_right (prune_left s)).right, -u ≤ v := by
  have hf := reach_fullInv s h
  exact (coreInv_prune_right _ (coreInv_prune_left _ hf.1)).order

theorem c4_partition_order_witness :
    ((-2 : Int) ∈ (prune_right (prune_left threeState)).left ∧
      (3 : Int) ∈ (prune_right (prune_left threeState)).right) ∧
    -(-2 : Int) ≤ 3 :=
  ⟨⟨by decide, by decide⟩,
    c4_partition_order threeState
      (runOps_reach [Op.add 1, Op.add 2, Op.add 3] threeState (by decide))
      (-2) (by decide) 3 (by decide)⟩

/-- C5 (refuted): after the reachable script `removeCrashOps` the value 2 is
still logically present (`freq[2] = 2`), yet `remove(2)` does not return at
all: its internal rebalancing pops from an empty heap (IndexError), so
"remove(x) returns true iff x is present" fails on a reachable state. -/
theorem c5_remove_crashes_on_present_value :
    (runOps removeCrashOps).map (fun s => fc s.freq 2) = some 2 ∧
    runOps (removeCrashOps ++ [Op.remove 2]) = none := by decide

/-- C6 (confirmed): in every reachable state `median()` raises the
EmptyContainer error exactly when `n = 0`, and `add` never fails. -/
theorem c6_empty_error_iff_add_total (s : MedianContainer) (h : Reach s) :
    (median s = some (Except.error ()) ↔ s.n = 0) ∧
    ∀ x, MedianContainer.add x s ≠ none := by
  constructor
  · constructor
    · intro hm
      by_contra h0
      simp only [median] at hm
      rw [if_neg h0] at hm
      cases hL : (prune_left s).left with
      | nil => rw [hL] at hm; exact absurd hm (by simp)
      | cons t rest => rw [hL] at hm; exact absurd hm (by simp)
    · intro h0
      simp only [median]
      rw [if_pos h0]
  · intro x hnone
    obtain ⟨s1, hadd, _⟩ := add_total_inv x s (reach_fullInv s h)
    rw [hadd] at hnone
    exact absurd hnone (by simp)

theorem c6_empty_error_iff_add_total_witness :
    (median MedianContainer.empty = some (Except.error ()) ↔
      MedianContainer.empty.n = 0) ∧
    ∀ x, MedianContainer.add x MedianContainer.empty ≠ none :=
  c6_empty_error_iff_add_total MedianContainer.empty Reach.init

/-- C8 (amended): every completed rebalancing invocation moves AT MOST one
element across the partitions — either it changes nothing, or it pops exactly
one entry from one pruned heap and pushes it into the other, the two
corrective moves being mutually exclusive; the original "exactly one" is
refuted by `c8_rebalance_can_move_nothing`. -/
theorem c8_rebalance_at_most_one_move (s s1 : MedianContainer)
    (hr : rebalance s = some s1) :
    (s1 = s) ∨
    (∃ v rest, (prune_right s).right = v :: rest ∧
      s1 = prune_right (moveRL (prune_right s) v rest) ∧
      s1.left_size = s.left_size + 1 ∧ s1.right_size = s.right_size - 1) ∨
    (∃ t rest, (prune_left s).left = t :: rest ∧
      s1 = prune_left (moveLR (prune_left s) t rest) ∧
      s1.left_size = s.left_size - 1 ∧ s1.right_size = s.right_size + 1) := by
  rcases rebalance_cases s s1 hr with ⟨_, _, he⟩ | ⟨_, v, rest, hR, he⟩ |
      ⟨_, _, t, rest, hL, he⟩
  · exact Or.inl he
  · refine Or.inr (Or.inl ⟨v, rest, hR, he, ?_, ?_⟩)
    · rw [he, prune_right_ls, (moveRL_fields (prune_right s) v rest).2.2.1,
        prune_right_ls]
    · rw [he, prune_right_rs, (moveRL_fields (prune_right s) v rest).2.2.2.1,
        prune_right_rs]
  · refine Or.inr (Or.inr ⟨t, rest, hL, he, ?_, ?_⟩)
    · rw [he, prune_left_ls, (moveLR_fields (prune_left s) t rest).2.2.1,
        prune_left_ls]
    · rw [he, prune_left_rs, (moveLR_fields (prune_left s) t rest).2.2.2.1,
        prune_left_rs]

theorem c8_rebalance_at_most_one_move_witness :
    (balancedOneState = balancedOneState) ∨
    (∃ v rest, (prune_right balancedOneState).right = v :: rest ∧
      balancedOneState = prune_right (moveRL (prune_right balancedOneState) v rest) ∧
      balancedOneState.left_size = balancedOneState.left_size + 1 ∧
      balancedOneState.right_size = balancedOneState.right_size - 1) ∨
    (∃ t rest, (prune_left balancedOneState).left = t :: rest ∧
      balancedOneState = prune_left (moveLR (prune_left balancedOneState) t rest) ∧
      balancedOneState.left_size = balancedOneState.left_size - 1 ∧
      balancedOneState.right_size = balancedOneState.right_size + 1) :=
  c8_rebalance_at_most_one_move balancedOneState balancedOneState (by decide)

/-- C9 (amended): a `remove(x)` call with zero present occurrences returns
false and is an observational no-op — both heaps, both size counters, the
delayed map, `n` and every frequency count are unchanged; the original claim
that no key is inserted into the count map is refuted by
`c9_failed_remove_inserts_key` (the `defaultdict` read inserts `x`). -/
theorem c9_failed_remove_observational_noop (s : MedianContainer) (x : Int)
    (h : fc s.freq x = 0) :
    ∃ s1, remove x s = some (false, s1) ∧
      s1.left = s.left ∧ s1.right = s.right ∧ s1.left_size = s.left_size ∧
      s1.right_size = s.right_size ∧ s1.delayed = s.delayed ∧ s1.n = s.n ∧
      ∀ v, fc s1.freq v = fc s.freq v := by
  refine ⟨{ s with freq := (dget s.freq x).2 }, ?_, rfl, rfl, rfl, rfl, rfl, rfl, ?_⟩
  · simp only [remove]
    rw [if_pos (by rw [dget_fst]; exact h)]
  · intro v
    show fc (dget s.freq x).2 v = fc s.freq v
    rw [fc_dget]

theorem c9_failed_remove_observational_noop_witness :
    fc MedianContainer.empty.freq 7 = 0 ∧
    ∃ s1, remove 7 MedianContainer.empty = some (false, s1) ∧
      s1.left = MedianContainer.empty.left ∧
      s1.right = MedianContainer.empty.right ∧
      s1.left_size = MedianContainer.empty.left_size ∧
      s1.right_size = MedianContainer.empty.right_size ∧
      s1.delayed = MedianContainer.empty.delayed ∧
      s1.n = MedianContainer.empty.n ∧
      ∀ v, fc s1.freq v = fc MedianContainer.empty.freq v :=
  ⟨by decide, c9_failed_remove_observational_noop MedianContainer.empty 7 (by decide)⟩
